import Mathlib

/-!
# stat_malloc: the consumer of allocation events and the producer's send functions

A shallow embedding of `src/stat_server.cpp` (the consumer: `insert_allocation`,
`remove_allocation`, the receive loop of `main`, the age bins and the symbol scale of `print_stats`)
and of `send_allocation` / `send_free` and the spin lock (`shm_spin_lock`,
`shm_spin_unlock`) of `src/shared_client.c`.

Conventions of the embedding (LP64 Linux, the platform of the System V queues the
program uses):

* a `void *` is its address, a natural number;
* `size_t` values are natural numbers; right shifts never overflow, so the bin
  computation is done on `Nat` directly;
* `uint32_t` counters (`size_array`, `age_array`, `elapsed_time`) wrap modulo `2^32`;
* `total_current_size` is a `long` updated with a `size_t` operand: the arithmetic is
  done modulo `2^64` and the result is read back as a signed 64-bit value;
* `overall_allocations` is a `long` that is only ever incremented by one; signed
  overflow is undefined in C++ and would take `2^63` received messages, so the
  increment is taken on `Int`;
* `gettimeofday` is an input: every operation that reads the clock takes the
  reading as an argument;
* the operations on an `atomic_flag` are atomic steps (C11, sequentially consistent):
  concurrent callers of the lock are an interleaving of such steps.
-/

namespace StatMalloc

/-! ## Data model -/

/-- The `timeval` of `sys/time.h`: seconds and microseconds, both `long`. -/
structure timeval where
  tv_sec : Int
  tv_usec : Int
deriving DecidableEq, Repr

/-- The record `data_t` stored for every live allocation. -/
structure data_t where
  size : Nat
  size_bin : Nat
  time : timeval
deriving DecidableEq, Repr

/-- The payload `msg_data_t` of a queue message (`stat_server.h`). -/
structure msg_data_t where
  ptr : Nat
  size : Nat
deriving DecidableEq, Repr

/-- The number of size bins, `NUM_SIZE_BINS`. -/
def NUM_SIZE_BINS : Nat := 12

/-- The number of age bins, `NUM_AGE_BINS`. -/
def NUM_AGE_BINS : Nat := 5

/-- The globals of `stat_server.cpp`.  `map_data` is the `multimap<void *, data_t>`,
kept as the list of its entries in iteration order (ascending key, equal keys in
insertion order). -/
structure State where
  map_data : List (Nat × data_t)
  overall_allocations : Int
  total_current_size : Int
  size_array : List Nat
deriving DecidableEq, Repr

/-- The zero-initialised globals at program start. -/
def init : State :=
  { map_data := [],
    overall_allocations := 0,
    total_current_size := 0,
    size_array := List.replicate NUM_SIZE_BINS 0 }

/-! ## Machine arithmetic -/

/-- Reading an integer as a signed 64-bit `long` (two's complement wrap). -/
def wrap_long (x : Int) : Int :=
  (x + 9223372036854775808) % 18446744073709551616 - 9223372036854775808

/-- The `uint32_t` increment `x++`. -/
def u32_inc (x : Nat) : Nat := (x + 1) % 4294967296

/-- The `uint32_t` decrement `x--` (zero wraps to `2^32 - 1`). -/
def u32_dec (x : Nat) : Nat := (x + 4294967295) % 4294967296

/-! ## The multimap -/

/-- The insertion `multimap::insert`: the new entry goes after every entry whose key
is not greater (the upper bound of its key). -/
def mm_insert (k : Nat) (v : data_t) : List (Nat × data_t) → List (Nat × data_t)
  | [] => [(k, v)]
  | e :: rest => if e.1 ≤ k then e :: mm_insert k v rest else (k, v) :: e :: rest

/-- The lookup `multimap::find`: the first entry with the key, if any. -/
def mm_find (k : Nat) (m : List (Nat × data_t)) : Option (Nat × data_t) :=
  m.find? (fun e => e.1 == k)

/-- The removal `multimap::erase(it)` for the iterator returned by `find`: exactly the
first entry with the key is removed. -/
def mm_erase (k : Nat) (m : List (Nat × data_t)) : List (Nat × data_t) :=
  m.eraseP (fun e => e.1 == k)

/-! ## insert_allocation -/

/-- The loop `while (temp_size >>= 1) data.size_bin++;`.  The first argument bounds the
number of iterations; `temp_size` itself is always enough, as every iteration halves
it. -/
def size_bin_loop : Nat → Nat → Nat → Nat
  | 0, _, bin => bin
  | fuel + 1, temp_size, bin =>
    if temp_size >>> 1 ≠ 0 then size_bin_loop fuel (temp_size >>> 1) (bin + 1) else bin

/-- The bin stored on the record: one shift, the loop, then `min` with
`NUM_SIZE_BINS - 1`. -/
def size_bin_of (size : Nat) : Nat :=
  min (size_bin_loop (size >>> 1) (size >>> 1) 0) (NUM_SIZE_BINS - 1)

/-- The function `insert_allocation(ptr, size)`; `now` is what `gettimeofday` returns. -/
def insert_allocation (s : State) (ptr size : Nat) (now : timeval) : State :=
  let data : data_t := { size := size, size_bin := size_bin_of size, time := now }
  { map_data := mm_insert ptr data s.map_data,
    overall_allocations := s.overall_allocations + 1,
    total_current_size := wrap_long (s.total_current_size + size),
    size_array := s.size_array.set data.size_bin (u32_inc (s.size_array.getD data.size_bin 0)) }

/-! ## remove_allocation -/

/-- The function `remove_allocation(ptr)`. -/
def remove_allocation (s : State) (ptr : Nat) : State :=
  match mm_find ptr s.map_data with
  | none => s
  | some it =>
    { map_data := mm_erase ptr s.map_data,
      overall_allocations := s.overall_allocations,
      total_current_size := wrap_long (s.total_current_size - it.2.size),
      size_array := s.size_array.set it.2.size_bin (u32_dec (s.size_array.getD it.2.size_bin 0)) }

/-! ## The receive loop of main -/

/-- One iteration of the loop of `main` on a received message: a nonzero size is an
insertion, a zero size is a removal.  (The call of `print_stats` that may follow
changes no global.) -/
def handle_msg (s : State) (msg : msg_data_t) (now : timeval) : State :=
  if msg.size ≠ 0 then insert_allocation s msg.ptr msg.size now
  else remove_allocation s msg.ptr

/-- The loop of `main` over the messages received, each with the clock reading taken
while it is handled. -/
def consume (s : State) (msgs : List (msg_data_t × timeval)) : State :=
  msgs.foldl (fun st m => handle_msg st m.1 m.2) s

/-! ## The age bins of print_stats -/

/-- The value `elapsed_time` of `print_stats`: the difference of the seconds plus the
difference of the microseconds divided by `1000000` (the division of C++ on `long`
truncates toward zero), stored in a `uint32_t`. -/
def elapsed_time (current_time t : timeval) : Nat :=
  (((current_time.tv_sec - t.tv_sec) +
      Int.tdiv (current_time.tv_usec - t.tv_usec) 1000000) % 4294967296).toNat

/-- The loop `while ((elapsed_time > 1) && (age_bin < EQUAL_TO_OR_OVER_1000_SEC))`.
The first argument bounds the number of iterations; four are always enough, as
`age_bin` starts at zero and the loop stops at four. -/
def age_bin_loop : Nat → Nat → Nat → Nat
  | 0, _, age_bin => age_bin
  | fuel + 1, elapsed, age_bin =>
    if elapsed > 1 ∧ age_bin < 4 then age_bin_loop fuel (elapsed / 10) (age_bin + 1)
    else age_bin

/-- The age bin `print_stats` gives a record: `age_bin` starts at `LESS_THAN_1_SEC`. -/
def age_bin_of (current_time t : timeval) : Nat :=
  age_bin_loop 4 (elapsed_time current_time t) 0

/-- The array `age_array` built by the loop over `map_data` in `print_stats`. -/
def age_array (s : State) (current_time : timeval) : List Nat :=
  s.map_data.foldl
    (fun arr e =>
      arr.set (age_bin_of current_time e.2.time)
        (u32_inc (arr.getD (age_bin_of current_time e.2.time) 0)))
    (List.replicate NUM_AGE_BINS 0)

/-! ## The producer: send_allocation and send_free -/

/-- The function `send_allocation(ptr, size)` of `shared_client.c` on the message queue:
a zero size returns before anything is sent, otherwise `msgsnd` appends one message
(it blocks while the queue is full, and is taken to succeed). -/
def send_allocation (queue : List msg_data_t) (ptr size : Nat) : List msg_data_t :=
  if size = 0 then queue else queue ++ [{ ptr := ptr, size := size }]

/-- The function `send_free(ptr)` of `shared_client.c`: `msgsnd` appends one message
whose size is zero (it blocks while the queue is full, and is taken to succeed). -/
def send_free (queue : List msg_data_t) (ptr : Nat) : List msg_data_t :=
  queue ++ [{ ptr := ptr, size := 0 }]

/-! ## Quantities the statements are about -/

/-- The sum of the sizes of the records of the live table. -/
def live_size_sum (m : List (Nat × data_t)) : Nat :=
  (m.map (fun e => e.2.size)).sum

/-- The number of records of the live table whose stored `size_bin` is `i`. -/
def bin_count (m : List (Nat × data_t)) (i : Nat) : Nat :=
  m.countP (fun e => e.2.size_bin == i)

/-- The number of records of the live table at address `p`. -/
def key_count (m : List (Nat × data_t)) (p : Nat) : Nat :=
  m.countP (fun e => e.1 == p)

/-- The states reachable from the zero-initialised state by `insert_allocation` and
`remove_allocation`. -/
inductive Reachable : State → Prop
  | start : Reachable init
  | insert (s : State) (ptr size : Nat) (now : timeval) :
      Reachable s → Reachable (insert_allocation s ptr size now)
  | remove (s : State) (ptr : Nat) : Reachable s → Reachable (remove_allocation s ptr)

/-! ## The specification side -/

/-- The clamp of `x` to the interval from `lo` to `hi`. -/
def clamp (x lo hi : Int) : Int := max lo (min x hi)

/-- The size bucket as the specification words it:
`clamp(floor(log2(size)) - 1, 0, 11)`. -/
def spec_size_bin (size : Nat) : Int := clamp ((Nat.log 2 size : Int) - 1) 0 11

/-- One event on the specification's set of outstanding allocations, kept as
(address, size) pairs: an Allocate (nonzero size) adds its pair, a Free (size zero)
removes the pairs of its address. -/
def spec_live_step (live : List (Nat × Nat)) (m : msg_data_t) : List (Nat × Nat) :=
  if m.size ≠ 0 then (m.ptr, m.size) :: live else live.filter (fun e => e.1 != m.ptr)

/-- The outstanding allocations (allocated and not yet freed) after a sequence of
events. -/
def spec_live (live : List (Nat × Nat)) (msgs : List msg_data_t) : List (Nat × Nat) :=
  msgs.foldl spec_live_step live

/-- No address is allocated again while it is still live. -/
def no_reuse : List (Nat × Nat) → List msg_data_t → Bool
  | _, [] => true
  | live, m :: rest =>
    (m.size == 0 || !(live.map Prod.fst).contains m.ptr) && no_reuse (spec_live_step live m) rest

/-- The age bucket as the specification words it, from the age in microseconds:
below 1 s, below 10 s, below 100 s, below 1000 s, and 1000 s or more. -/
def spec_age_bucket (age_usec : Int) : Nat :=
  if age_usec < 1000000 then 0
  else if age_usec < 10000000 then 1
  else if age_usec < 100000000 then 2
  else if age_usec < 1000000000 then 3
  else 4

/-- The age `now - created_at` in microseconds. -/
def age_usec (now created_at : timeval) : Int :=
  (now.tv_sec - created_at.tv_sec) * 1000000 + (now.tv_usec - created_at.tv_usec)

/-- The stream of one producer: an Allocate message for each (address, size) pair,
then a Free message for each address of the second list. -/
def producer_stream (pr : List (Nat × Nat) × List Nat) : List msg_data_t :=
  pr.1.map (fun a => { ptr := a.1, size := a.2 }) ++ pr.2.map (fun p => { ptr := p, size := 0 })

/-- The interleavings of several streams: every step takes the head of one of the
streams, so each stream keeps its own order. -/
inductive Interleave {α : Type} : List (List α) → List α → Prop
  | done (streams : List (List α)) : (∀ l ∈ streams, l = []) → Interleave streams []
  | pick (pre post : List (List α)) (x : α) (t rest : List α) :
      Interleave (pre ++ t :: post) rest → Interleave (pre ++ (x :: t) :: post) (x :: rest)

/-! ## Counting the messages of a stream -/

/-- Starting with `c` live records at address `p`, the messages of the stream never
free `p` while no record is live at it, and leave no record at `p`. -/
def settles (p : Nat) : Nat → List msg_data_t → Prop
  | c, [] => c = 0
  | c, m :: rest =>
    if m.ptr = p then
      if m.size ≠ 0 then settles p (c + 1) rest else 0 < c ∧ settles p (c - 1) rest
    else settles p c rest

/-- The number of Free messages for `p` in a stream less the number of its Allocate
messages for `p`. -/
def credit (p : Nat) (l : List msg_data_t) : Nat :=
  l.countP (fun m => m.ptr == p && m.size == 0) - l.countP (fun m => m.ptr == p && m.size != 0)

/-! ## The symbol scale of print_stats -/

/-- The function `get_max_bin_num(age_array)`: the largest of the twelve entries of
the global `size_array` and the five entries of `age_array`. -/
def get_max_bin_num (s : State) (age_array : List Nat) : Nat :=
  (List.range NUM_AGE_BINS).foldl
    (fun max_num i => if max_num < age_array.getD i 0 then age_array.getD i 0 else max_num)
    ((List.range NUM_SIZE_BINS).foldl
      (fun max_num i =>
        if max_num < s.size_array.getD i 0 then s.size_array.getD i 0 else max_num)
      0)

/-- The loop `while (max_bin_num > 40) { max_bin_num >>= 1; symbol_size <<= 1; }` on
two `uint32_t`; it returns both variables.  The first argument bounds the number of
iterations; `max_bin_num` itself is always enough, as every iteration halves it. -/
def symbol_size_loop : Nat → Nat → Nat → Nat × Nat
  | 0, max_bin_num, symbol_size => (max_bin_num, symbol_size)
  | fuel + 1, max_bin_num, symbol_size =>
    if max_bin_num > 40 then
      symbol_size_loop fuel (max_bin_num >>> 1) ((symbol_size <<< 1) % 4294967296)
    else (max_bin_num, symbol_size)

/-- The value of `symbol_size` after the loop of `print_stats`: it starts at 1. -/
def symbol_size_of (max_bin_num : Nat) : Nat :=
  (symbol_size_loop max_bin_num max_bin_num 1).2

/-- The function `print_size_symbol(bin, symbol_size)`: the marks it prints. -/
def print_size_symbol (s : State) (bin symbol_size : Nat) : List Char :=
  if bin ≥ NUM_SIZE_BINS then []
  else List.replicate (s.size_array.getD bin 0 / symbol_size) '#'

/-- The function `print_age_symbol(age_array, bin, symbol_size)`: the marks it prints. -/
def print_age_symbol (age_array : List Nat) (bin symbol_size : Nat) : List Char :=
  if bin ≥ NUM_AGE_BINS then []
  else List.replicate (age_array.getD bin 0 / symbol_size) '#'

/-! ## The cross-process lock of shared_client.c -/

/-- The lock kind `LOCK_TYPE_MALLOC`. -/
def LOCK_TYPE_MALLOC : Nat := 1

/-- The lock kind `LOCK_TYPE_FREE`. -/
def LOCK_TYPE_FREE : Nat := 2

/-- The lock kind `LOCK_TYPE_CALLOC`. -/
def LOCK_TYPE_CALLOC : Nat := 3

/-- The lock kind `LOCK_TYPE_REALLOC`. -/
def LOCK_TYPE_REALLOC : Nat := 4

/-- The four lock kinds. -/
def lock_types : List Nat :=
  [LOCK_TYPE_MALLOC, LOCK_TYPE_FREE, LOCK_TYPE_CALLOC, LOCK_TYPE_REALLOC]

/-- The size `SHM_SIZE` of the shared segment in bytes (`stat_server.h`).  The
segment is used as an array of `atomic_flag`, one byte each: it is kept as the list
of its flags, `true` for a flag that is set. -/
def SHM_SIZE : Nat := 64

/-- The initialisation of the segment by `main` of the server: four `uint32_t` words,
the first sixteen bytes, are set to zero. -/
def main_init_shm (shm : List Bool) : List Bool :=
  List.replicate 16 false ++ shm.drop 16

/-- The C11 operation `atomic_flag_test_and_set(lock + i)`: in one atomic step the flag
is set and its previous value is returned. -/
def atomic_flag_test_and_set (shm : List Bool) (i : Nat) : Bool × List Bool :=
  (shm.getD i false, shm.set i true)

/-- The C11 operation `atomic_flag_clear(lock + i)`. -/
def atomic_flag_clear (shm : List Bool) (i : Nat) : List Bool :=
  shm.set i false

/-- The function `shm_spin_unlock(lock_type)`. -/
def shm_spin_unlock (shm : List Bool) (lock_type : Nat) : List Bool :=
  atomic_flag_clear shm lock_type

/-- One iteration of the loop of `shm_spin_lock(lock_type)`: the test-and-set, and
whether the loop is left (the previous value was not 1) or goes on spinning. -/
def shm_spin_lock_try (shm : List Bool) (lock_type : Nat) : Bool × List Bool :=
  (!(atomic_flag_test_and_set shm lock_type).1, (atomic_flag_test_and_set shm lock_type).2)

/-- The shared segment together with the callers of the lock, threads of any
process: for each caller, the kind whose critical section it is in (it has returned
from `shm_spin_lock` of that kind and not yet called `shm_spin_unlock`), if any. -/
structure LockSys where
  shm : List Bool
  holding : List (Option Nat)
deriving DecidableEq, Repr

/-- One atomic step of one caller.  A caller outside every critical section runs
one iteration of the loop of `shm_spin_lock(lock_type)` and enters the critical
section if the loop is left; a caller inside the critical section of a kind leaves it
by `shm_spin_unlock` of the same kind. -/
def lock_step (s : LockSys) (caller lock_type : Nat) : LockSys :=
  match s.holding[caller]? with
  | none => s
  | some none =>
    if (shm_spin_lock_try s.shm lock_type).1 then
      { shm := (shm_spin_lock_try s.shm lock_type).2,
        holding := s.holding.set caller (some lock_type) }
    else
      { shm := (shm_spin_lock_try s.shm lock_type).2, holding := s.holding }
  | some (some held) =>
    { shm := shm_spin_unlock s.shm held, holding := s.holding.set caller none }

/-- An interleaving of the callers: the steps are taken in the order of the schedule,
each entry naming the caller that moves and the kind it asks for when it is outside. -/
def lock_run (s : LockSys) (schedule : List (Nat × Nat)) : LockSys :=
  schedule.foldl (fun st e => lock_step st e.1 e.2) s

/-- The start: the segment as `main` of the server initialises it, and `n` callers
outside every critical section. -/
def lock_init (shm : List Bool) (n : Nat) : LockSys :=
  { shm := main_init_shm shm, holding := List.replicate n none }

/-- The number of callers inside the critical section of a kind. -/
def holders (s : LockSys) (lock_type : Nat) : Nat :=
  s.holding.count (some lock_type)

/-! ## The size bin -/

theorem size_bin_loop_eq (fuel : Nat) :
    ∀ t b, t ≤ fuel → size_bin_loop fuel t b = b + Nat.log 2 t := by
  induction fuel with
  | zero =>
    intro t b h
    have ht : t = 0 := by omega
    subst ht
    simp [size_bin_loop]
  | succ n ih =>
    intro t b h
    have hs : t >>> 1 = t / 2 := by simp [Nat.shiftRight_eq_div_pow]
    unfold size_bin_loop
    rw [hs]
    by_cases h2 : t / 2 = 0
    · have hlt : t < 2 := by omega
      simp [h2, Nat.log_of_lt hlt]
    · have h3 : 2 ≤ t := by omega
      rw [if_pos h2, ih _ _ (by omega), Nat.log_of_one_lt_of_le (by norm_num) h3]
      omega

theorem size_bin_of_eq (size : Nat) : size_bin_of size = min (Nat.log 2 size - 1) 11 := by
  have hs : size >>> 1 = size / 2 := by simp [Nat.shiftRight_eq_div_pow]
  unfold size_bin_of
  rw [size_bin_loop_eq _ _ _ (le_refl _), hs, Nat.log_div_base]
  simp [NUM_SIZE_BINS]

theorem size_bin_of_lt (size : Nat) : size_bin_of size < NUM_SIZE_BINS := by
  rw [size_bin_of_eq]
  simp only [NUM_SIZE_BINS]
  omega

/-! ## The multimap operations -/

theorem mm_insert_perm (k : Nat) (v : data_t) (m : List (Nat × data_t)) :
    (mm_insert k v m).Perm ((k, v) :: m) := by
  induction m with
  | nil => simp [mm_insert]
  | cons e rest ih =>
    unfold mm_insert
    split_ifs
    · exact (ih.cons e).trans (List.Perm.swap _ _ _)
    · exact List.Perm.refl _

theorem mm_find_none (k : Nat) (m : List (Nat × data_t)) (h : mm_find k m = none) :
    ∀ e ∈ m, e.1 ≠ k := by
  intro e he hk
  unfold mm_find at h
  rw [List.find?_eq_none] at h
  exact h e he (by simp [hk])

theorem mm_find_some (k : Nat) (it : Nat × data_t) :
    ∀ m : List (Nat × data_t), mm_find k m = some it →
      it.1 = k ∧ m.Perm (it :: mm_erase k m) := by
  intro m
  induction m with
  | nil => intro h; simp [mm_find] at h
  | cons e rest ih =>
    intro h
    by_cases hk : e.1 = k
    · have he : it = e := by
        simp [mm_find, List.find?, hk] at h
        exact h.symm
      subst he
      refine ⟨hk, ?_⟩
      simp [mm_erase, List.eraseP, hk]
    · have hb : (e.1 == k) = false := by simp [hk]
      have hr : mm_find k rest = some it := by
        unfold mm_find at h ⊢
        rw [List.find?_cons, hb] at h
        exact h
      obtain ⟨h1, h2⟩ := ih hr
      refine ⟨h1, ?_⟩
      have : mm_erase k (e :: rest) = e :: mm_erase k rest := by
        unfold mm_erase
        rw [List.eraseP_cons, hb]
        rfl
      rw [this]
      exact (h2.cons e).trans (List.Perm.swap _ _ _)

theorem mm_find_of_first (k : Nat) (v : data_t) (pre post : List (Nat × data_t))
    (hpre : ∀ e ∈ pre, e.1 ≠ k) :
    mm_find k (pre ++ (k, v) :: post) = some (k, v) ∧
      mm_erase k (pre ++ (k, v) :: post) = pre ++ post := by
  induction pre with
  | nil => simp [mm_find, mm_erase]
  | cons e rest ih =>
    have he : e.1 ≠ k := hpre e (by simp)
    have hb : (e.1 == k) = false := by simp [he]
    obtain ⟨h1, h2⟩ := ih (fun x hx => hpre x (by simp [hx]))
    unfold mm_find mm_erase at *
    constructor
    · rw [List.cons_append, List.find?_cons, hb]
      exact h1
    · rw [List.cons_append, List.eraseP_cons, hb, List.cons_append]
      exact congrArg (List.cons e) h2

theorem live_size_sum_perm {a b : List (Nat × data_t)} (h : a.Perm b) :
    live_size_sum a = live_size_sum b :=
  (h.map _).sum_eq

theorem bin_count_perm {a b : List (Nat × data_t)} (h : a.Perm b) (i : Nat) :
    bin_count a i = bin_count b i :=
  h.countP_eq _

theorem key_count_perm {a b : List (Nat × data_t)} (h : a.Perm b) (p : Nat) :
    key_count a p = key_count b p :=
  h.countP_eq _

theorem live_size_sum_cons (e : Nat × data_t) (m : List (Nat × data_t)) :
    live_size_sum (e :: m) = e.2.size + live_size_sum m := by
  simp [live_size_sum]

theorem bin_count_cons (e : Nat × data_t) (m : List (Nat × data_t)) (i : Nat) :
    bin_count (e :: m) i = bin_count m i + (if e.2.size_bin = i then 1 else 0) := by
  simp [bin_count, List.countP_cons]

theorem key_count_cons (e : Nat × data_t) (m : List (Nat × data_t)) (p : Nat) :
    key_count (e :: m) p = key_count m p + (if e.1 = p then 1 else 0) := by
  simp [key_count, List.countP_cons]

theorem getD_set (l : List Nat) (j v i : Nat) :
    (l.set j v).getD i 0 = if i = j ∧ j < l.length then v else l.getD i 0 := by
  simp only [List.getD_eq_getElem?_getD, List.getElem?_set]
  by_cases hij : j = i
  · subst hij
    by_cases hl : j < l.length
    · simp [hl]
    · simp [hl, List.getElem?_eq_none (Nat.le_of_not_lt hl)]
  · have : ¬ i = j := fun h => hij h.symm
    simp [hij, this]

theorem wrap_long_add (a b : Int) : wrap_long (wrap_long a + b) = wrap_long (a + b) := by
  unfold wrap_long; omega

theorem wrap_long_sub (a b : Int) : wrap_long (wrap_long a - b) = wrap_long (a - b) := by
  unfold wrap_long; omega

theorem wrap_long_of_range (a : Int) (h1 : -9223372036854775808 ≤ a)
    (h2 : a < 9223372036854775808) : wrap_long a = a := by
  unfold wrap_long; omega

/-! ## The invariant of the reachable states -/

theorem remove_allocation_none (s : State) (ptr : Nat) (h : mm_find ptr s.map_data = none) :
    remove_allocation s ptr = s := by
  unfold remove_allocation
  rw [h]

theorem remove_allocation_some (s : State) (ptr : Nat) (it : Nat × data_t)
    (h : mm_find ptr s.map_data = some it) :
    remove_allocation s ptr =
      { map_data := mm_erase ptr s.map_data,
        overall_allocations := s.overall_allocations,
        total_current_size := wrap_long (s.total_current_size - it.2.size),
        size_array :=
          s.size_array.set it.2.size_bin (u32_dec (s.size_array.getD it.2.size_bin 0)) } := by
  unfold remove_allocation
  rw [h]

theorem reachable_inv (s : State) (hs : Reachable s) :
    s.size_array.length = NUM_SIZE_BINS ∧
    (∀ e ∈ s.map_data, e.2.size_bin = size_bin_of e.2.size) ∧
    (∀ i, i < NUM_SIZE_BINS → s.size_array.getD i 0 = bin_count s.map_data i % 4294967296) ∧
    s.total_current_size = wrap_long (live_size_sum s.map_data) := by
  induction hs with
  | start =>
    refine ⟨by simp [init], by simp [init], ?_, by simp [init, live_size_sum, wrap_long]⟩
    intro i hi
    simp only [NUM_SIZE_BINS] at hi
    interval_cases i <;> rfl
  | insert s ptr size now _ ih =>
    obtain ⟨h1, h2, h3, h4⟩ := ih
    have hp := mm_insert_perm ptr { size := size, size_bin := size_bin_of size, time := now }
      s.map_data
    have hb := size_bin_of_lt size
    refine ⟨by simp [insert_allocation, h1], ?_, ?_, ?_⟩
    · intro e he
      have he2 := hp.mem_iff.mp he
      rcases List.mem_cons.mp he2 with rfl | hm
      · rfl
      · exact h2 e hm
    · intro i hi
      show (List.set _ _ _).getD i 0 = bin_count (mm_insert _ _ _) i % 4294967296
      rw [getD_set, bin_count_perm hp, bin_count_cons, h1]
      by_cases hi2 : i = size_bin_of size
      · subst hi2
        simp only [hb, and_self, if_true, h3 _ hb, u32_inc]
        omega
      · have hi3 : ¬ size_bin_of size = i := fun h => hi2 h.symm
        simp only [hi2, hi3, false_and, if_false, h3 i hi]
        omega
    · show wrap_long (s.total_current_size + size) = wrap_long (live_size_sum (mm_insert _ _ _))
      rw [live_size_sum_perm hp, live_size_sum_cons, h4, wrap_long_add]
      push_cast
      rw [add_comm]
  | remove s ptr _ ih =>
    obtain ⟨h1, h2, h3, h4⟩ := ih
    cases hf : mm_find ptr s.map_data with
    | none =>
      rw [remove_allocation_none s ptr hf]
      exact ⟨h1, h2, h3, h4⟩
    | some it =>
      rw [remove_allocation_some s ptr it hf]
      obtain ⟨_, hp⟩ := mm_find_some ptr it s.map_data hf
      have hmem : it ∈ s.map_data := hp.mem_iff.mpr (List.mem_cons_self _ _)
      have hb : it.2.size_bin < NUM_SIZE_BINS := by
        rw [h2 it hmem]
        exact size_bin_of_lt _
      refine ⟨by simp [h1], ?_, ?_, ?_⟩
      · intro e he
        exact h2 e (hp.mem_iff.mpr (List.mem_cons_of_mem _ he))
      · intro i hi
        show (List.set _ _ _).getD i 0 = bin_count (mm_erase _ _) i % 4294967296
        have hc := bin_count_perm hp i
        rw [bin_count_cons] at hc
        rw [getD_set, h1]
        by_cases hi2 : i = it.2.size_bin
        · subst hi2
          simp only [hb, and_self, if_true, h3 _ hb, u32_dec]
          simp only [if_true] at hc
          omega
        · have hi3 : ¬ it.2.size_bin = i := fun h => hi2 h.symm
          simp only [hi2, hi3, false_and, if_false, h3 i hi] at hc ⊢
          omega
      · show wrap_long (s.total_current_size - it.2.size) = wrap_long (live_size_sum (mm_erase _ _))
        have hsum := live_size_sum_perm hp
        rw [live_size_sum_cons] at hsum
        rw [h4, wrap_long_sub, hsum]
        push_cast
        congr 1
        omega

theorem handle_msg_reachable (s : State) (msg : msg_data_t) (now : timeval)
    (hs : Reachable s) : Reachable (handle_msg s msg now) := by
  unfold handle_msg
  split_ifs
  · exact Reachable.insert _ _ _ _ hs
  · exact Reachable.remove _ _ hs

theorem consume_reachable (msgs : List (msg_data_t × timeval)) :
    ∀ s, Reachable s → Reachable (consume s msgs) := by
  induction msgs with
  | nil => intro s hs; exact hs
  | cons m rest ih =>
    intro s hs
    exact ih _ (handle_msg_reachable s m.1 m.2 hs)

theorem consume_cons (s : State) (m : msg_data_t × timeval)
    (rest : List (msg_data_t × timeval)) :
    consume s (m :: rest) = consume (handle_msg s m.1 m.2) rest := rfl

/-! ## The live table against the outstanding allocations of the specification -/

theorem live_step_rel (s : State) (live : List (Nat × Nat)) (m : msg_data_t) (now : timeval)
    (hperm : (s.map_data.map (fun e => (e.1, e.2.size))).Perm live)
    (hnd : (live.map Prod.fst).Nodup)
    (hm : m.size ≠ 0 → m.ptr ∉ live.map Prod.fst) :
    ((handle_msg s m now).map_data.map (fun e => (e.1, e.2.size))).Perm (spec_live_step live m) ∧
      ((spec_live_step live m).map Prod.fst).Nodup := by
  unfold handle_msg spec_live_step
  by_cases hz : m.size ≠ 0
  · rw [if_pos hz, if_pos hz]
    constructor
    · show ((mm_insert _ _ _).map _).Perm _
      exact ((mm_insert_perm _ _ _).map _).trans (hperm.cons _)
    · simp only [List.map_cons, List.nodup_cons]
      exact ⟨hm hz, hnd⟩
  · rw [if_neg hz, if_neg hz]
    have hnd2 : ((live.filter (fun e => e.1 != m.ptr)).map Prod.fst).Nodup :=
      hnd.sublist ((List.filter_sublist live).map _)
    refine ⟨?_, hnd2⟩
    cases hf : mm_find m.ptr s.map_data with
    | none =>
      rw [remove_allocation_none s _ hf]
      have hall : ∀ e ∈ live, (e.1 != m.ptr) = true := by
        intro e he
        obtain ⟨x, hx, hxe⟩ := List.mem_map.mp (hperm.mem_iff.mpr he)
        have := mm_find_none _ _ hf x hx
        rw [← hxe]
        simpa using this
      rw [List.filter_eq_self.mpr hall]
      exact hperm
    | some it =>
      rw [remove_allocation_some s _ it hf]
      obtain ⟨hk, hp⟩ := mm_find_some _ it _ hf
      show ((mm_erase m.ptr s.map_data).map _).Perm _
      have h1 : live.Perm ((it.1, it.2.size) ::
          (mm_erase m.ptr s.map_data).map (fun e => (e.1, e.2.size))) :=
        hperm.symm.trans (hp.map _)
      have h2 : (((it.1, it.2.size) ::
          (mm_erase m.ptr s.map_data).map (fun e => (e.1, e.2.size))).map Prod.fst).Nodup :=
        (h1.map Prod.fst).nodup_iff.mp hnd
      simp only [List.map_cons, List.nodup_cons] at h2
      have h3 := h1.filter (fun e => e.1 != m.ptr)
      have h4 : ((it.1, it.2.size) ::
          (mm_erase m.ptr s.map_data).map (fun e => (e.1, e.2.size))).filter
            (fun e => e.1 != m.ptr) =
          (mm_erase m.ptr s.map_data).map (fun e => (e.1, e.2.size)) := by
        rw [List.filter_cons_of_neg (by simp [hk])]
        apply List.filter_eq_self.mpr
        intro e he
        have : e.1 ≠ it.1 := by
          intro hcon
          apply h2.1
          rw [← hcon]
          exact List.mem_map_of_mem Prod.fst he
        rw [hk] at this
        simpa using this
      rw [h4] at h3
      exact h3.symm

theorem live_rel (msgs : List (msg_data_t × timeval)) :
    ∀ (s : State) (live : List (Nat × Nat)),
      (s.map_data.map (fun e => (e.1, e.2.size))).Perm live →
      (live.map Prod.fst).Nodup →
      no_reuse live (msgs.map Prod.fst) = true →
      ((consume s msgs).map_data.map (fun e => (e.1, e.2.size))).Perm
        (spec_live live (msgs.map Prod.fst)) := by
  induction msgs with
  | nil => intro s live hp _ _; exact hp
  | cons m rest ih =>
    intro s live hp hnd hnr
    simp only [List.map_cons, no_reuse, Bool.and_eq_true, Bool.or_eq_true, beq_iff_eq,
      Bool.not_eq_true', List.contains_eq_any_beq, List.any_eq_false] at hnr
    obtain ⟨hm, hrest⟩ := hnr
    have hm2 : m.1.size ≠ 0 → m.1.ptr ∉ live.map Prod.fst := by
      intro hz hmem
      rcases hm with h0 | hall
      · exact hz h0
      · have := hall _ hmem
        simp at this
    obtain ⟨h1, h2⟩ := live_step_rel s live m.1 m.2 hp hnd hm2
    exact ih _ _ h1 h2 hrest

theorem live_size_sum_eq_of_perm (m : List (Nat × data_t)) (live : List (Nat × Nat))
    (h : (m.map (fun e => (e.1, e.2.size))).Perm live) :
    live_size_sum m = (live.map Prod.snd).sum := by
  have := (h.map Prod.snd).sum_eq
  simpa [live_size_sum, List.map_map, Function.comp] using this

/-! ## Counters along a run -/

theorem bin_count_replicate_insert (t : timeval) (n : Nat) :
    ∀ s : State,
      bin_count (consume s (List.replicate n (({ ptr := 0, size := 1 } : msg_data_t), t))).map_data 0
        = bin_count s.map_data 0 + n := by
  induction n with
  | zero => intro s; rfl
  | succ k ih =>
    intro s
    rw [List.replicate_succ, consume_cons, ih]
    have hh : handle_msg s { ptr := 0, size := 1 } t = insert_allocation s 0 1 t := by
      simp [handle_msg]
    rw [hh]
    show bin_count (mm_insert _ _ _) 0 + k = _
    rw [bin_count_perm (mm_insert_perm _ _ _), bin_count_cons]
    have h0 : size_bin_of 1 = 0 := by decide
    simp only [h0, if_true]
    omega

theorem replicate_insert_entries (t : timeval) (n : Nat) :
    ∀ s : State,
      (∀ e ∈ s.map_data, e = (0, ({ size := 1, size_bin := 0, time := t } : data_t))) →
      ∀ e ∈ (consume s (List.replicate n (({ ptr := 0, size := 1 } : msg_data_t), t))).map_data,
        e = (0, ({ size := 1, size_bin := 0, time := t } : data_t)) := by
  induction n with
  | zero => intro s hs; exact hs
  | succ k ih =>
    intro s hs
    rw [List.replicate_succ, consume_cons]
    apply ih
    have hh : handle_msg s { ptr := 0, size := 1 } t = insert_allocation s 0 1 t := by
      simp [handle_msg]
    rw [hh]
    intro e he
    have he2 := (mm_insert_perm _ _ _).mem_iff.mp he
    rcases List.mem_cons.mp he2 with h | h
    · rw [h]
      have h0 : size_bin_of 1 = 0 := by decide
      rw [h0]
    · exact hs e h

theorem replicate_insert_then_free (t t2 : timeval) (n : Nat) (hn : 0 < n) :
    Reachable (consume init (List.replicate n (({ ptr := 0, size := 1 } : msg_data_t), t))) ∧
    key_count (consume init
      (List.replicate n (({ ptr := 0, size := 1 } : msg_data_t), t))).map_data 0 = n ∧
    (consume init
      (List.replicate n (({ ptr := 0, size := 1 } : msg_data_t), t))).size_array.getD 0 0
      = n % 4294967296 ∧
    (handle_msg (consume init (List.replicate n (({ ptr := 0, size := 1 } : msg_data_t), t)))
      { ptr := 0, size := 0 } t2).size_array.getD 0 0 = u32_dec (n % 4294967296) := by
  generalize hS : consume init (List.replicate n (({ ptr := 0, size := 1 } : msg_data_t), t)) = S
  have hr : Reachable S := by
    rw [← hS]
    exact consume_reachable _ init Reachable.start
  have hc : bin_count S.map_data 0 = n := by
    rw [← hS, bin_count_replicate_insert t n init]
    simp [init, bin_count]
  have hall : ∀ e ∈ S.map_data, e = (0, ({ size := 1, size_bin := 0, time := t } : data_t)) := by
    rw [← hS]
    exact replicate_insert_entries t n init (by intro e he; simp [init] at he)
  obtain ⟨hlen, _, harr, _⟩ := reachable_inv S hr
  have h0 := harr 0 (by decide)
  rw [hc] at h0
  have hkey : key_count S.map_data 0 = n := by
    rw [← hc]
    unfold key_count bin_count
    apply List.countP_congr
    intro e he
    rw [hall e he]
  refine ⟨hr, hkey, h0, ?_⟩
  have hh : handle_msg S { ptr := 0, size := 0 } t2 = remove_allocation S 0 := by
    simp [handle_msg]
  rw [hh]
  cases hf : mm_find 0 S.map_data with
  | none =>
    exfalso
    have hnone := mm_find_none _ _ hf
    have hz : key_count S.map_data 0 = 0 := by
      unfold key_count
      rw [List.countP_eq_zero]
      intro e he
      simpa using hnone e he
    omega
  | some it =>
    rw [remove_allocation_some S 0 it hf]
    obtain ⟨_, hp⟩ := mm_find_some 0 it _ hf
    have hit := hall it (hp.mem_iff.mpr (List.mem_cons_self _ _))
    show (List.set _ _ _).getD 0 0 = _
    rw [hit, getD_set]
    simp only [NUM_SIZE_BINS] at hlen
    have hlt : ({ size := 1, size_bin := 0, time := t } : data_t).size_bin < S.size_array.length := by rw [hlen]; show 0 < 12; omega
    rw [if_pos ⟨rfl, hlt⟩, h0]

theorem overall_allocations_consume (msgs : List (msg_data_t × timeval)) :
    ∀ s : State, (consume s msgs).overall_allocations =
      s.overall_allocations + (msgs.countP (fun m => m.1.size != 0) : Nat) := by
  induction msgs with
  | nil => intro s; simp [consume]
  | cons m rest ih =>
    intro s
    rw [consume_cons, ih, List.countP_cons]
    unfold handle_msg
    by_cases hz : m.1.size = 0
    · have hb : (m.1.size != 0) = false := by simp [hz]
      rw [if_neg (by simpa using hz), hb]
      have : (remove_allocation s m.1.ptr).overall_allocations = s.overall_allocations := by
        unfold remove_allocation
        split <;> rfl
      rw [this]
      simp
    · have hb : (m.1.size != 0) = true := by simp [hz]
      rw [if_pos hz, hb]
      show s.overall_allocations + 1 + _ = _
      push_cast
      simp
      ring

theorem bin_count_append (a b : List (Nat × data_t)) (i : Nat) :
    bin_count (a ++ b) i = bin_count a i + bin_count b i := by
  simp [bin_count, List.countP_append]

theorem live_size_sum_append (a b : List (Nat × data_t)) :
    live_size_sum (a ++ b) = live_size_sum a + live_size_sum b := by
  simp [live_size_sum]

/-! ## Interleaved producers -/

theorem settles_counts (p : Nat) (l : List msg_data_t) :
    ∀ c, settles p c l →
      c + l.countP (fun m => m.ptr == p && m.size != 0)
        = l.countP (fun m => m.ptr == p && m.size == 0) := by
  induction l with
  | nil => intro c h; simpa [settles] using h
  | cons m rest ih =>
    intro c h
    unfold settles at h
    rw [List.countP_cons, List.countP_cons]
    by_cases hp : m.ptr = p
    · by_cases hz : m.size = 0
      · simp only [hp, hz, if_true, ne_eq, not_true_eq_false, if_false] at h
        have := ih _ h.2
        simp [hp, hz]
        omega
      · simp only [hp, if_true, ne_eq, hz, not_false_eq_true] at h
        have := ih _ h
        simp [hp, hz]
        omega
    · simp only [hp, if_false] at h
      have := ih _ h
      simp [hp]
      omega

theorem settles_credit (p : Nat) (l : List msg_data_t) (c : Nat) (h : settles p c l) :
    credit p l = c := by
  have := settles_counts p l c h
  unfold credit
  omega

theorem settles_frees (p : Nat) (frees : List Nat) :
    settles p (frees.count p) (frees.map (fun q => ({ ptr := q, size := 0 } : msg_data_t))) := by
  induction frees with
  | nil => simp [settles]
  | cons q rest ih =>
    rw [List.map_cons]
    unfold settles
    by_cases hq : q = p
    · subst hq
      simp only [if_true, ne_eq, not_true_eq_false, if_false, List.count_cons_self]
      exact ⟨Nat.succ_pos _, by simpa using ih⟩
    · have : List.count p (q :: rest) = List.count p rest := by
        rw [List.count_cons_of_ne]
        exact fun h => hq h.symm
      simp only [hq, if_false, this]
      exact ih

theorem settles_producer (p : Nat) (frees : List Nat) (allocs : List (Nat × Nat))
    (hsize : ∀ a ∈ allocs, a.2 ≠ 0) :
    ∀ c, c + (allocs.map Prod.fst).count p = frees.count p →
      settles p c (producer_stream (allocs, frees)) := by
  induction allocs with
  | nil =>
    intro c hc
    simp only [List.map_nil, List.count_nil, Nat.add_zero] at hc
    rw [hc]
    simpa [producer_stream] using settles_frees p frees
  | cons a rest ih =>
    intro c hc
    have hz : a.2 ≠ 0 := hsize a (List.mem_cons_self _ _)
    have hrest := ih (fun x hx => hsize x (List.mem_cons_of_mem _ hx))
    show settles p c (({ ptr := a.1, size := a.2 } : msg_data_t) :: producer_stream (rest, frees))
    unfold settles
    by_cases hp : a.1 = p
    · simp only [hp, if_true, ne_eq, hz, not_false_eq_true]
      apply hrest
      rw [List.map_cons, hp, List.count_cons_self] at hc
      omega
    · simp only [hp, if_false]
      apply hrest
      rw [List.map_cons, List.count_cons_of_ne (fun h => hp h.symm)] at hc
      exact hc

theorem settles_interleave (p : Nat) (streams : List (List msg_data_t)) (msgs : List msg_data_t)
    (hint : Interleave streams msgs) :
    (∀ r ∈ streams, settles p (credit p r) r) →
      settles p ((streams.map (credit p)).sum) msgs := by
  induction hint with
  | done streams hnil =>
    intro _
    have : (streams.map (credit p)).sum = 0 := by
      apply List.sum_eq_zero
      intro x hx
      obtain ⟨r, hr, rfl⟩ := List.mem_map.mp hx
      rw [hnil r hr]
      rfl
    rw [this]
    rfl
  | pick pre post x t rest _ ih =>
    intro hall
    have hxt := hall (x :: t) (by simp)
    have hother : ∀ r ∈ pre ++ t :: post, r ≠ t → settles p (credit p r) r := by
      intro r hr hne
      apply hall
      simp only [List.mem_append, List.mem_cons] at hr ⊢
      rcases hr with h | h | h
      · exact Or.inl h
      · exact absurd h hne
      · exact Or.inr (Or.inr h)
    have hsum : ∀ u : List msg_data_t, ((pre ++ u :: post).map (credit p)).sum
        = (pre.map (credit p)).sum + credit p u + (post.map (credit p)).sum := by
      intro u
      simp [List.sum_append, List.sum_cons, Nat.add_assoc]
    have hstep : ∀ c, settles p c t → credit p t = c → ∀ r ∈ pre ++ t :: post,
        settles p (credit p r) r := by
      intro c hc hcr r hr
      by_cases hrt : r = t
      · rw [hrt, hcr]; exact hc
      · exact hother r hr hrt
    rw [hsum]
    rw [hsum] at ih
    unfold settles at hxt ⊢
    by_cases hp : x.ptr = p
    · by_cases hz : x.size = 0
      · simp only [hp, hz, if_true, ne_eq, not_true_eq_false, if_false] at hxt ⊢
        have hcr := settles_credit p t _ hxt.2
        have := ih (hstep _ hxt.2 hcr)
        refine ⟨by omega, ?_⟩
        have heq : (pre.map (credit p)).sum + credit p (x :: t) + (post.map (credit p)).sum - 1
            = (pre.map (credit p)).sum + credit p t + (post.map (credit p)).sum := by omega
        rw [heq]
        exact this
      · simp only [hp, if_true, ne_eq, hz, not_false_eq_true] at hxt ⊢
        have hcr := settles_credit p t _ hxt
        have := ih (hstep _ hxt hcr)
        have heq : (pre.map (credit p)).sum + credit p (x :: t) + (post.map (credit p)).sum + 1
            = (pre.map (credit p)).sum + credit p t + (post.map (credit p)).sum := by omega
        rw [heq]
        exact this
    · simp only [hp, if_false] at hxt ⊢
      have hcr := settles_credit p t _ hxt
      have := ih (hstep _ hxt hcr)
      rw [hcr] at this
      exact this

theorem key_count_insert (s : State) (q size : Nat) (now : timeval) (p : Nat) :
    key_count (insert_allocation s q size now).map_data p
      = key_count s.map_data p + (if q = p then 1 else 0) := by
  show key_count (mm_insert _ _ _) p = _
  rw [key_count_perm (mm_insert_perm _ _ _), key_count_cons]

theorem key_count_remove (s : State) (q p : Nat) :
    key_count (remove_allocation s q).map_data p
      = key_count s.map_data p - (if q = p then 1 else 0) := by
  cases hf : mm_find q s.map_data with
  | none =>
    rw [remove_allocation_none s q hf]
    by_cases hq : q = p
    · subst hq
      have : key_count s.map_data q = 0 := by
        unfold key_count
        rw [List.countP_eq_zero]
        intro e he
        simpa using mm_find_none _ _ hf e he
      rw [this]
      simp
    · simp [hq]
  | some it =>
    rw [remove_allocation_some s q it hf]
    obtain ⟨hk, hp⟩ := mm_find_some q it _ hf
    have := key_count_perm hp p
    rw [key_count_cons, hk] at this
    show key_count (mm_erase _ _) p = _
    rw [this]
    omega

theorem settles_consume (p : Nat) (msgs : List (msg_data_t × timeval)) :
    ∀ (s : State) (c : Nat), settles p c (msgs.map Prod.fst) → key_count s.map_data p = c →
      key_count (consume s msgs).map_data p = 0 := by
  induction msgs with
  | nil =>
    intro s c h hc
    simp only [List.map_nil, settles] at h
    rw [← h, ← hc]
    rfl
  | cons m rest ih =>
    intro s c h hc
    rw [consume_cons]
    rw [List.map_cons] at h
    unfold settles at h
    unfold handle_msg
    by_cases hz : m.1.size = 0
    · rw [if_neg (by simpa using hz)]
      by_cases hp : m.1.ptr = p
      · simp only [hp, hz, if_true, ne_eq, not_true_eq_false, if_false] at h
        apply ih _ _ h.2
        rw [key_count_remove, hc]
        simp [hp]
      · simp only [hp, if_false] at h
        apply ih _ _ h
        rw [key_count_remove, hc]
        simp [hp]
    · rw [if_pos hz]
      by_cases hp : m.1.ptr = p
      · simp only [hp, if_true, ne_eq, hz, not_false_eq_true] at h
        apply ih _ _ h
        rw [key_count_insert, hc]
        simp [hp]
      · simp only [hp, if_false] at h
        apply ih _ _ h
        rw [key_count_insert, hc]
        simp [hp]

theorem eq_nil_of_key_count (m : List (Nat × data_t)) (h : ∀ p, key_count m p = 0) : m = [] := by
  cases m with
  | nil => rfl
  | cons e rest =>
    have := h e.1
    rw [key_count_cons] at this
    simp at this

theorem countP_interleave (q : msg_data_t → Bool) (streams : List (List msg_data_t))
    (msgs : List msg_data_t) (hint : Interleave streams msgs) :
    msgs.countP q = (streams.map (fun r => r.countP q)).sum := by
  induction hint with
  | done streams hnil =>
    symm
    apply List.sum_eq_zero
    intro x hx
    obtain ⟨r, hr, rfl⟩ := List.mem_map.mp hx
    rw [hnil r hr]
    rfl
  | pick pre post x t rest _ ih =>
    rw [List.countP_cons, ih]
    simp only [List.map_append, List.map_cons, List.sum_append, List.sum_cons, List.countP_cons]
    omega

theorem countP_producer_stream (pr : List (Nat × Nat) × List Nat)
    (hsize : ∀ a ∈ pr.1, a.2 ≠ 0) :
    (producer_stream pr).countP (fun m => m.size != 0) = pr.1.length := by
  unfold producer_stream
  rw [List.countP_append, List.countP_map, List.countP_map]
  have h1 : List.countP ((fun m : msg_data_t => m.size != 0) ∘
      fun a : Nat × Nat => ({ ptr := a.1, size := a.2 } : msg_data_t)) pr.1 = pr.1.length := by
    rw [List.countP_eq_length]
    intro a ha
    simpa using hsize a ha
  have h2 : List.countP ((fun m : msg_data_t => m.size != 0) ∘
      fun p : Nat => ({ ptr := p, size := 0 } : msg_data_t)) pr.2 = 0 := by
    rw [List.countP_eq_zero]
    intro a _
    simp
  rw [h1, h2]
  rfl

theorem allocates_of_producers (M : Nat) (prods : List (List (Nat × Nat) × List Nat)) :
    (∀ pr ∈ prods, pr.1.length = M) → (∀ pr ∈ prods, ∀ a ∈ pr.1, a.2 ≠ 0) →
      ((prods.map producer_stream).map (fun r => r.countP (fun m => m.size != 0))).sum
        = prods.length * M := by
  induction prods with
  | nil => intro _ _; simp
  | cons pr rest ih =>
    intro hM hsize
    rw [List.map_cons, List.map_cons, List.sum_cons, List.length_cons,
      ih (fun x hx => hM x (List.mem_cons_of_mem _ hx))
        (fun x hx => hsize x (List.mem_cons_of_mem _ hx)),
      countP_producer_stream pr (hsize pr (List.mem_cons_self _ _)),
      hM pr (List.mem_cons_self _ _)]
    ring

/-! ## The symbol scale -/

theorem foldl_max_range (a : List Nat) (n : Nat) (m0 : Nat) :
    m0 ≤ (List.range n).foldl
        (fun max_num i => if max_num < a.getD i 0 then a.getD i 0 else max_num) m0 ∧
    (∀ i, i < n → a.getD i 0 ≤ (List.range n).foldl
        (fun max_num i => if max_num < a.getD i 0 then a.getD i 0 else max_num) m0) ∧
    ((List.range n).foldl
        (fun max_num i => if max_num < a.getD i 0 then a.getD i 0 else max_num) m0 = m0 ∨
      ∃ i, i < n ∧ (List.range n).foldl
        (fun max_num i => if max_num < a.getD i 0 then a.getD i 0 else max_num) m0
          = a.getD i 0) := by
  induction n with
  | zero => simp
  | succ k ih =>
    obtain ⟨h1, h2, h3⟩ := ih
    rw [List.range_succ, List.foldl_append]
    simp only [List.foldl_cons, List.foldl_nil]
    split_ifs with hlt
    · refine ⟨by omega, ?_, Or.inr ⟨k, by omega, rfl⟩⟩
      intro i hi
      by_cases hik : i = k
      · rw [hik]
      · have := h2 i (by omega)
        omega
    · refine ⟨h1, ?_, ?_⟩
      · intro i hi
        by_cases hik : i = k
        · rw [hik]; omega
        · exact h2 i (by omega)
      · rcases h3 with h | ⟨i, hi, h⟩
        · exact Or.inl h
        · exact Or.inr ⟨i, by omega, h⟩

theorem symbol_size_loop_eq (fuel : Nat) :
    ∀ m sc, m ≤ fuel → sc * m < 4294967296 →
      ∃ k, symbol_size_loop fuel m sc = (m / 2 ^ k, sc * 2 ^ k) ∧ m / 2 ^ k ≤ 40 ∧
        ∀ j, j < k → 40 < m / 2 ^ j := by
  induction fuel with
  | zero =>
    intro m sc hm _
    have : m = 0 := by omega
    subst this
    exact ⟨0, by simp [symbol_size_loop], by simp, by intro j hj; omega⟩
  | succ n ih =>
    intro m sc hm hsc
    unfold symbol_size_loop
    by_cases h40 : m > 40
    · rw [if_pos h40]
      have hs : m >>> 1 = m / 2 := by simp [Nat.shiftRight_eq_div_pow]
      have hl : (sc <<< 1) % 4294967296 = sc * 2 := by
        rw [Nat.shiftLeft_eq, pow_one]
        apply Nat.mod_eq_of_lt
        nlinarith
      rw [hs, hl]
      have hle : sc * 2 * (m / 2) < 4294967296 := by
        have : 2 * (m / 2) ≤ m := Nat.mul_div_le m 2
        calc sc * 2 * (m / 2) = sc * (2 * (m / 2)) := by ring
          _ ≤ sc * m := Nat.mul_le_mul_left sc this
          _ < 4294967296 := hsc
      obtain ⟨k, hk1, hk2, hk3⟩ := ih (m / 2) (sc * 2) (by omega) hle
      have hdiv : ∀ j, m / 2 / 2 ^ j = m / 2 ^ (j + 1) := by
        intro j
        rw [Nat.div_div_eq_div_mul, pow_succ, Nat.mul_comm]
      refine ⟨k + 1, ?_, ?_, ?_⟩
      · rw [hk1, hdiv, pow_succ]
        congr 1
        ring
      · rw [← hdiv]; exact hk2
      · intro j hj
        cases j with
        | zero => simpa using h40
        | succ j2 =>
          rw [← hdiv]
          exact hk3 j2 (by omega)
    · rw [if_neg h40]
      exact ⟨0, by simp, by simpa using h40, by intro j hj; omega⟩

theorem getD_lt_of_forall (a : List Nat) (i : Nat) (h : ∀ x ∈ a, x < 4294967296) :
    a.getD i 0 < 4294967296 := by
  rw [List.getD_eq_getElem?_getD]
  cases hi : a[i]? with
  | none => simp
  | some x =>
    have hx : x ∈ a := List.getElem?_mem hi
    simpa using h x hx

theorem get_max_bin_num_spec (s : State) (age_array : List Nat) :
    (∀ i, i < NUM_SIZE_BINS → s.size_array.getD i 0 ≤ get_max_bin_num s age_array) ∧
    (∀ i, i < NUM_AGE_BINS → age_array.getD i 0 ≤ get_max_bin_num s age_array) ∧
    (get_max_bin_num s age_array = 0 ∨
      (∃ i, i < NUM_SIZE_BINS ∧ get_max_bin_num s age_array = s.size_array.getD i 0) ∨
      (∃ i, i < NUM_AGE_BINS ∧ get_max_bin_num s age_array = age_array.getD i 0)) := by
  obtain ⟨_, a2, a3⟩ := foldl_max_range s.size_array NUM_SIZE_BINS 0
  obtain ⟨b1, b2, b3⟩ := foldl_max_range age_array NUM_AGE_BINS
    ((List.range NUM_SIZE_BINS).foldl
      (fun max_num i =>
        if max_num < s.size_array.getD i 0 then s.size_array.getD i 0 else max_num) 0)
  refine ⟨fun i hi => le_trans (a2 i hi) b1, b2, ?_⟩
  rcases b3 with h | ⟨i, hi, h⟩
  · rcases a3 with h0 | ⟨i, hi, hs⟩
    · left
      exact h.trans h0
    · right; left
      exact ⟨i, hi, h.trans hs⟩
  · right; right
    exact ⟨i, hi, h⟩

theorem get_max_bin_num_lt (s : State) (age_array : List Nat)
    (hsize : ∀ x ∈ s.size_array, x < 4294967296) (hage : ∀ x ∈ age_array, x < 4294967296) :
    get_max_bin_num s age_array < 4294967296 := by
  rcases (get_max_bin_num_spec s age_array).2.2 with h | ⟨i, _, h⟩ | ⟨i, _, h⟩
  · rw [h]; decide
  · rw [h]; exact getD_lt_of_forall _ i hsize
  · rw [h]; exact getD_lt_of_forall _ i hage

theorem symbol_size_of_spec (m : Nat) (hm : m < 4294967296) :
    ∃ k, symbol_size_of m = 2 ^ k ∧ m / 2 ^ k ≤ 40 ∧ ∀ j, j < k → 40 < m / 2 ^ j := by
  obtain ⟨k, h1, h2, h3⟩ := symbol_size_loop_eq m m 1 (le_refl m) (by omega)
  refine ⟨k, ?_, h2, h3⟩
  unfold symbol_size_of
  rw [h1]
  simp

/-! ## The lock -/

theorem getD_set_flag (l : List Bool) (j : Nat) (v : Bool) (i : Nat) :
    (l.set j v).getD i false = if i = j ∧ j < l.length then v else l.getD i false := by
  simp only [List.getD_eq_getElem?_getD, List.getElem?_set]
  by_cases hij : j = i
  · subst hij
    by_cases hl : j < l.length
    · simp [hl]
    · simp [hl, List.getElem?_eq_none (Nat.le_of_not_lt hl)]
  · have : ¬ i = j := fun h => hij h.symm
    simp [hij, this]

theorem count_set_holding (x new old : Option Nat) :
    ∀ (l : List (Option Nat)) (i : Nat), l[i]? = some old →
      (l.set i new).count x + (if old = x then 1 else 0)
        = l.count x + (if new = x then 1 else 0) := by
  intro l
  induction l with
  | nil => intro i h; simp at h
  | cons a rest ih =>
    intro i h
    cases i with
    | zero =>
      simp only [List.getElem?_cons_zero, Option.some.injEq] at h
      subst h
      simp only [List.set_cons_zero, List.count_cons, beq_iff_eq]
      omega
    | succ j =>
      simp only [List.getElem?_cons_succ] at h
      have := ih j h
      simp only [List.set_cons_succ, List.count_cons, beq_iff_eq]
      omega

theorem lock_types_lt (k : Nat) (h : k ∈ lock_types) : k < 16 := by
  simp only [lock_types, LOCK_TYPE_MALLOC, LOCK_TYPE_FREE, LOCK_TYPE_CALLOC, LOCK_TYPE_REALLOC,
    List.mem_cons, List.mem_singleton, List.not_mem_nil, or_false] at h
  omega

theorem holders_pos_of_mem (s : LockSys) (k : Nat) (h : some k ∈ s.holding) :
    0 < holders s k :=
  List.count_pos_iff.mpr h

theorem lock_step_inv (s : LockSys) (caller k0 : Nat) (hk0 : k0 ∈ lock_types)
    (hlen : 16 ≤ s.shm.length)
    (hkinds : ∀ k, some k ∈ s.holding → k ∈ lock_types)
    (hcount : ∀ k ∈ lock_types, holders s k = if s.shm.getD k false then 1 else 0) :
    16 ≤ (lock_step s caller k0).shm.length ∧
    (∀ k, some k ∈ (lock_step s caller k0).holding → k ∈ lock_types) ∧
    (∀ k ∈ lock_types, holders (lock_step s caller k0) k
      = if (lock_step s caller k0).shm.getD k false then 1 else 0) := by
  have hk0lt := lock_types_lt k0 hk0
  unfold lock_step
  cases hc : s.holding[caller]? with
  | none => exact ⟨hlen, hkinds, hcount⟩
  | some st =>
    cases st with
    | none =>
      simp only [shm_spin_lock_try, atomic_flag_test_and_set]
      cases hflag : s.shm.getD k0 false with
      | true =>
        simp only [Bool.not_true, Bool.false_eq_true, if_false]
        refine ⟨by simpa using hlen, hkinds, ?_⟩
        intro k hk
        show holders s k = _
        rw [hcount k hk]
        simp only [getD_set_flag]
        by_cases hkk : k = k0
        · subst hkk
          have hlt : k < s.shm.length := by omega
          simp only [hlt, and_self, eq_self_iff_true, if_true, hflag]
        · simp only [hkk, false_and, if_false]
      | false =>
        simp only [Bool.not_false, if_true]
        refine ⟨by simpa using hlen, ?_, ?_⟩
        · intro k hk
          rcases List.mem_or_eq_of_mem_set hk with h | h
          · exact hkinds k h
          · rw [Option.some.inj h]; exact hk0
        · intro k hk
          have hcs := count_set_holding (some k) (some k0) none s.holding caller hc
          show List.count (some k) (s.holding.set caller (some k0)) = _
          have hold := hcount k hk
          unfold holders at hold
          simp only [getD_set_flag]
          by_cases hkk : k = k0
          · subst hkk
            rw [hflag] at hold
            simp only [reduceCtorEq, if_false, if_true, Nat.add_zero] at hcs
            simp only [Bool.false_eq_true, if_false] at hold
            have hlt : k < s.shm.length := by omega
            simp only [hlt, and_self, eq_self_iff_true, if_true]
            omega
          · have hne : ¬ (some k0 : Option Nat) = some k := by
              intro h; exact hkk (Option.some.inj h).symm
            simp only [reduceCtorEq, if_false, hne, Nat.add_zero] at hcs
            simp only [hkk, false_and, if_false]
            omega
    | some held =>
      have hmem : some held ∈ s.holding := List.getElem?_mem hc
      have hheld := hkinds held hmem
      have hheldlt := lock_types_lt held hheld
      have hpos := holders_pos_of_mem s held hmem
      have hflag : s.shm.getD held false = true := by
        have := hcount held hheld
        by_contra hne
        simp only [Bool.not_eq_true] at hne
        rw [hne] at this
        simp at this
        omega
      simp only [shm_spin_unlock, atomic_flag_clear]
      refine ⟨by simpa using hlen, ?_, ?_⟩
      · intro k hk
        rcases List.mem_or_eq_of_mem_set hk with h | h
        · exact hkinds k h
        · simp at h
      · intro k hk
        have hcs := count_set_holding (some k) none (some held) s.holding caller hc
        show List.count (some k) (s.holding.set caller none) = _
        have hold := hcount k hk
        unfold holders at hold
        simp only [getD_set_flag]
        by_cases hkk : k = held
        · subst hkk
          rw [hflag] at hold
          simp only [reduceCtorEq, if_false, if_true, Nat.add_zero] at hcs
          simp only [if_true] at hold
          have hlt : k < s.shm.length := by omega
          simp only [hlt, and_self, eq_self_iff_true, if_true, Bool.false_eq_true, if_false]
          omega
        · have hne : ¬ (some held : Option Nat) = some k := by
            intro h; exact hkk (Option.some.inj h).symm
          simp only [reduceCtorEq, if_false, hne, Nat.add_zero] at hcs
          simp only [hkk, false_and, if_false]
          omega

theorem lock_init_inv (shm : List Bool) (n : Nat) :
    16 ≤ (lock_init shm n).shm.length ∧
    (∀ k, some k ∈ (lock_init shm n).holding → k ∈ lock_types) ∧
    (∀ k ∈ lock_types, holders (lock_init shm n) k
      = if (lock_init shm n).shm.getD k false then 1 else 0) := by
  refine ⟨by simp [lock_init, main_init_shm], ?_, ?_⟩
  · intro k hk
    simp [lock_init, List.mem_replicate] at hk
  · intro k hk
    have hlt := lock_types_lt k hk
    have hflag : (lock_init shm n).shm.getD k false = false := by
      simp only [lock_init, main_init_shm, List.getD_eq_getElem?_getD]
      rw [List.getElem?_append_left (by simpa using hlt), List.getElem?_replicate, if_pos hlt]
      rfl
    have hcount : holders (lock_init shm n) k = 0 := by
      unfold holders lock_init
      rw [List.count_eq_zero]
      simp [List.mem_replicate]
    rw [hflag, hcount]
    simp

theorem lock_run_cons (s : LockSys) (e : Nat × Nat) (rest : List (Nat × Nat)) :
    lock_run s (e :: rest) = lock_run (lock_step s e.1 e.2) rest := rfl

theorem lock_step_length (s : LockSys) (caller k0 : Nat) :
    (lock_step s caller k0).shm.length = s.shm.length := by
  unfold lock_step
  split
  · rfl
  · split_ifs <;> simp [shm_spin_lock_try, atomic_flag_test_and_set]
  · simp [shm_spin_unlock, atomic_flag_clear]

theorem lock_run_inv (schedule : List (Nat × Nat)) :
    ∀ s : LockSys, (∀ e ∈ schedule, e.2 ∈ lock_types) →
      16 ≤ s.shm.length →
      (∀ k, some k ∈ s.holding → k ∈ lock_types) →
      (∀ k ∈ lock_types, holders s k = if s.shm.getD k false then 1 else 0) →
      (lock_run s schedule).shm.length = s.shm.length ∧
      (∀ k ∈ lock_types, holders (lock_run s schedule) k
        = if (lock_run s schedule).shm.getD k false then 1 else 0) := by
  induction schedule with
  | nil => intro s _ _ _ h3; exact ⟨rfl, h3⟩
  | cons e rest ih =>
    intro s hs h1 h2 h3
    obtain ⟨g1, g2, g3⟩ := lock_step_inv s e.1 e.2 (hs e (List.mem_cons_self _ _)) h1 h2 h3
    obtain ⟨r1, r2⟩ := ih _ (fun x hx => hs x (List.mem_cons_of_mem _ hx)) g1 g2 g3
    rw [lock_run_cons]
    exact ⟨r1.trans (lock_step_length _ _ _), r2⟩

/-! ## The claims -/

/-- C1 (as stated, refuted): one Allocate event of size `2^64 - 1` at address 0, which
is what a failed `malloc(-1)` reports, leaves `total_current_size` at `-1`, while the
sizes of the live addresses sum to `2^64 - 1`. -/
theorem total_current_size_differs_from_live_sum :
    no_reuse [] [{ ptr := 0, size := 18446744073709551615 }] = true ∧
    (consume init [({ ptr := 0, size := 18446744073709551615 }, { tv_sec := 0, tv_usec := 0 })]
      ).total_current_size = -1 ∧
    ((spec_live [] [{ ptr := 0, size := 18446744073709551615 }]).map Prod.snd).sum
      = 18446744073709551615 ∧
    live_size_sum
      (consume init [({ ptr := 0, size := 18446744073709551615 }, { tv_sec := 0, tv_usec := 0 })]
        ).map_data = 18446744073709551615 := by
  refine ⟨by decide, by decide, by decide, ?_⟩
  simp [consume, handle_msg, insert_allocation, init, mm_insert, live_size_sum]

/-- C1 (amended): from the empty initial state, after any finite sequence of Allocate
(nonzero size) and Free events in which no address is allocated again while it is
live, the sizes of the records of the live table sum to the sum of the sizes of the
addresses allocated and not yet freed, and `total_current_size` is that sum read as
a signed 64-bit value; it equals the sum whenever the sum is below `2^63`. -/
theorem total_current_size_eq_live_sum_wrapped (msgs : List (msg_data_t × timeval))
    (h : no_reuse [] (msgs.map Prod.fst) = true) :
    live_size_sum (consume init msgs).map_data
      = ((spec_live [] (msgs.map Prod.fst)).map Prod.snd).sum ∧
    (consume init msgs).total_current_size
      = wrap_long (((spec_live [] (msgs.map Prod.fst)).map Prod.snd).sum : Nat) ∧
    (((spec_live [] (msgs.map Prod.fst)).map Prod.snd).sum < 9223372036854775808 →
      (consume init msgs).total_current_size
        = (((spec_live [] (msgs.map Prod.fst)).map Prod.snd).sum : Nat)) := by
  have hrel := live_rel msgs init [] (by simp [init]) (by simp) h
  have hsum := live_size_sum_eq_of_perm _ _ hrel
  have hinv := (reachable_inv _ (consume_reachable msgs init Reachable.start)).2.2.2
  rw [hsum] at hinv
  refine ⟨hsum, hinv, ?_⟩
  intro hlt
  rw [hinv]
  apply wrap_long_of_range <;> omega

/-- Witness of C1 (amended): allocate 8 bytes at 16 and 4096 bytes at 32, then
free 16: `total_current_size` is 4096. -/
theorem total_current_size_eq_live_sum_wrapped_witness :
    no_reuse [] [{ ptr := 16, size := 8 }, { ptr := 32, size := 4096 }, { ptr := 16, size := 0 }]
      = true ∧
    (consume init [({ ptr := 16, size := 8 }, { tv_sec := 0, tv_usec := 0 }),
      ({ ptr := 32, size := 4096 }, { tv_sec := 0, tv_usec := 0 }),
      ({ ptr := 16, size := 0 }, { tv_sec := 1, tv_usec := 0 })]).total_current_size = 4096 :=
  ⟨by decide,
    ((total_current_size_eq_live_sum_wrapped
      [({ ptr := 16, size := 8 }, { tv_sec := 0, tv_usec := 0 }),
        ({ ptr := 32, size := 4096 }, { tv_sec := 0, tv_usec := 0 }),
        ({ ptr := 16, size := 0 }, { tv_sec := 1, tv_usec := 0 })] (by decide)).2.2
      (by decide)).trans (by decide)⟩

/-- C2 (as stated, refuted): after `2^32` Allocate events of size 1 (all in bin 0) the
state is reachable, `2^32` live records have stored bin 0, and `size_array[0]` has
wrapped to 0. -/
theorem size_array_wraps_at_two_pow_32 :
    Reachable (consume init
      (List.replicate 4294967296 ({ ptr := 0, size := 1 }, { tv_sec := 0, tv_usec := 0 }))) ∧
    bin_count (consume init
      (List.replicate 4294967296 ({ ptr := 0, size := 1 }, { tv_sec := 0, tv_usec := 0 }))
        ).map_data 0 = 4294967296 ∧
    (consume init
      (List.replicate 4294967296 ({ ptr := 0, size := 1 }, { tv_sec := 0, tv_usec := 0 }))
        ).size_array.getD 0 0 = 0 := by
  have hr := consume_reachable
    (List.replicate 4294967296 (({ ptr := 0, size := 1 } : msg_data_t),
      ({ tv_sec := 0, tv_usec := 0 } : timeval))) init Reachable.start
  have hc := bin_count_replicate_insert { tv_sec := 0, tv_usec := 0 } 4294967296 init
  have hc2 : bin_count init.map_data 0 = 0 := rfl
  rw [hc2, Nat.zero_add] at hc
  refine ⟨hr, hc, ?_⟩
  rw [(reachable_inv _ hr).2.2.1 0 (by decide), hc]

/-- C2 (amended): in every state reachable from the zero-initialised state by
`insert_allocation` and `remove_allocation`, `size_array` has twelve entries and
entry `i` is the number of live records whose stored bin is `i`, reduced modulo `2^32`
(so it is that number while fewer than `2^32` records are live in the bin); every
stored bin is the bin computed from the record's size at insertion, and
`remove_allocation` changes no entry but that one; while fewer than `2^32` records
are live in that bin, the entry is at least one before the decrement and one less
after it. -/
theorem size_array_counts_live_records_mod (s : State) (hs : Reachable s) :
    s.size_array.length = 12 ∧
    (∀ i, i < 12 →
      s.size_array.getD i 0 = bin_count s.map_data i % 4294967296 ∧
      (bin_count s.map_data i < 4294967296 → s.size_array.getD i 0 = bin_count s.map_data i)) ∧
    (∀ e ∈ s.map_data, e.2.size_bin = size_bin_of e.2.size ∧ e.2.size_bin < 12) ∧
    (∀ (ptr : Nat) (it : Nat × data_t), mm_find ptr s.map_data = some it →
      (∀ i, i ≠ it.2.size_bin →
        (remove_allocation s ptr).size_array.getD i 0 = s.size_array.getD i 0) ∧
      (bin_count s.map_data it.2.size_bin < 4294967296 →
        1 ≤ s.size_array.getD it.2.size_bin 0 ∧
        (remove_allocation s ptr).size_array.getD it.2.size_bin 0 + 1
          = s.size_array.getD it.2.size_bin 0)) := by
  obtain ⟨h1, h2, h3, _⟩ := reachable_inv s hs
  simp only [NUM_SIZE_BINS] at h1 h3
  have hbin : ∀ e ∈ s.map_data, e.2.size_bin < 12 := by
    intro e he
    rw [h2 e he]
    exact size_bin_of_lt _
  refine ⟨h1, ?_, fun e he => ⟨h2 e he, hbin e he⟩, ?_⟩
  · intro i hi
    refine ⟨h3 i hi, fun hlt => ?_⟩
    rw [h3 i hi, Nat.mod_eq_of_lt hlt]
  · intro ptr it hf
    obtain ⟨_, hp⟩ := mm_find_some ptr it s.map_data hf
    have hmem : it ∈ s.map_data := hp.mem_iff.mpr (List.mem_cons_self _ _)
    have hb := hbin it hmem
    have hc := bin_count_perm hp it.2.size_bin
    rw [bin_count_cons] at hc
    simp only [if_true] at hc
    rw [remove_allocation_some s ptr it hf]
    constructor
    · intro i hi
      show (List.set _ _ _).getD i 0 = _
      rw [getD_set]
      simp [hi]
    · intro hlt
      show _ ∧ (List.set _ _ _).getD _ 0 + 1 = _
      rw [getD_set, h1]
      simp only [hb, and_self, if_true, u32_dec, h3 _ hb]
      omega

/-- Witness of C2 (amended): the state after inserting 8 bytes at address 16. -/
theorem size_array_counts_live_records_mod_witness :
    Reachable (insert_allocation init 16 8 { tv_sec := 0, tv_usec := 0 }) ∧
    (insert_allocation init 16 8 { tv_sec := 0, tv_usec := 0 }).size_array.length = 12 :=
  ⟨Reachable.insert _ _ _ _ Reachable.start,
    (size_array_counts_live_records_mod _ (Reachable.insert _ 16 8 _ Reachable.start)).1⟩

/-- C3: from the initial state, after any finite sequence of received messages,
`overall_allocations` is the number of messages with nonzero size (the Allocate
events), whatever Free events are interleaved, and `remove_allocation` leaves it
unchanged. -/
theorem overall_allocations_counts_allocates (msgs : List (msg_data_t × timeval)) :
    (consume init msgs).overall_allocations
      = ((msgs.filter (fun m => m.1.size != 0)).length : Nat) ∧
    (∀ (s : State) (ptr : Nat),
      (remove_allocation s ptr).overall_allocations = s.overall_allocations) ∧
    (∀ (s : State) (ptr : Nat) (now : timeval),
      (handle_msg s { ptr := ptr, size := 0 } now).overall_allocations
        = s.overall_allocations) := by
  refine ⟨?_, ?_, ?_⟩
  · rw [overall_allocations_consume, List.countP_eq_length_filter]
    simp [init]
  · intro s ptr
    unfold remove_allocation
    split <;> rfl
  · intro s ptr now
    unfold handle_msg remove_allocation
    simp only [ne_eq, not_true_eq_false, if_false]
    split <;> rfl

/-- C4: for every size of one or more, the bin that `insert_allocation` stores on the
record is `clamp(floor(log2(size)) - 1, 0, 11)`, where `floor(log2(size))` is the `k`
with `2^k ≤ size < 2^(k+1)`; sizes 1, 2 and 3 give bin 0, 4095 gives bin 10, 4096 and
1000000 give bin 11, and the bin is always within 0 and 11. -/
theorem size_bin_is_clamped_log (size : Nat) (h : 1 ≤ size) :
    (2 ^ Nat.log 2 size ≤ size ∧ size < 2 ^ (Nat.log 2 size + 1)) ∧
    (size_bin_of size : Int) = spec_size_bin size ∧
    (∀ (s : State) (ptr : Nat) (now : timeval),
      ∃ data : data_t, (ptr, data) ∈ (insert_allocation s ptr size now).map_data ∧
        data.size = size ∧ (data.size_bin : Int) = spec_size_bin size) ∧
    (0 ≤ size_bin_of size ∧ size_bin_of size ≤ 11) ∧
    size_bin_of 1 = 0 ∧ size_bin_of 2 = 0 ∧ size_bin_of 3 = 0 ∧
    size_bin_of 4095 = 10 ∧ size_bin_of 4096 = 11 ∧ size_bin_of 1000000 = 11 := by
  have key : (size_bin_of size : Int) = spec_size_bin size := by
    rw [size_bin_of_eq]
    unfold spec_size_bin clamp
    simp only [min_def, max_def]
    split_ifs <;> push_cast <;> omega
  refine ⟨⟨Nat.pow_log_le_self 2 (by omega), Nat.lt_pow_succ_log_self (by norm_num) size⟩,
    key, ?_, ⟨Nat.zero_le _, ?_⟩, by decide, by decide, by decide, by decide, by decide,
    by decide⟩
  · intro s ptr now
    refine ⟨{ size := size, size_bin := size_bin_of size, time := now }, ?_, rfl, key⟩
    exact (mm_insert_perm _ _ _).mem_iff.mpr (List.mem_cons_self _ _)
  · have := size_bin_of_lt size
    simp only [NUM_SIZE_BINS] at this
    omega

/-- Witness of C4 at size 4096. -/
theorem size_bin_is_clamped_log_witness :
    1 ≤ 4096 ∧ (size_bin_of 4096 : Int) = spec_size_bin 4096 ∧ size_bin_of 4096 ≤ 11 :=
  ⟨by decide, (size_bin_is_clamped_log 4096 (by decide)).2.1,
    (size_bin_is_clamped_log 4096 (by decide)).2.2.2.1.2⟩

/-- C5 (as stated, refuted): after the events Allocate(32, 5), Allocate(32, 7) and
Allocate(0, `2^63 - 9`) the state is reachable and holds two records at address 32;
one Free for 32 removes the 5-byte record and takes `total_current_size` from
`-9223372036854775805` to `9223372036854775806`, not to 5 less.  And after `2^32`
events Allocate(0, 1) the state is reachable and holds `2^32` records at address 0,
all in bin 0; one Free for 0 takes `size_array[0]` from 0 to `2^32 - 1`. -/
theorem free_of_two_wraps_counters :
    (Reachable (consume init
        [({ ptr := 32, size := 5 }, { tv_sec := 0, tv_usec := 0 }),
          ({ ptr := 32, size := 7 }, { tv_sec := 0, tv_usec := 0 }),
          ({ ptr := 0, size := 9223372036854775799 }, { tv_sec := 0, tv_usec := 0 })]) ∧
      (consume init
        [({ ptr := 32, size := 5 }, { tv_sec := 0, tv_usec := 0 }),
          ({ ptr := 32, size := 7 }, { tv_sec := 0, tv_usec := 0 }),
          ({ ptr := 0, size := 9223372036854775799 }, { tv_sec := 0, tv_usec := 0 })]).map_data
        = [(0, { size := 9223372036854775799, size_bin := 11,
                 time := { tv_sec := 0, tv_usec := 0 } }),
            (32, { size := 5, size_bin := 1, time := { tv_sec := 0, tv_usec := 0 } }),
            (32, { size := 7, size_bin := 1, time := { tv_sec := 0, tv_usec := 0 } })] ∧
      (consume init
        [({ ptr := 32, size := 5 }, { tv_sec := 0, tv_usec := 0 }),
          ({ ptr := 32, size := 7 }, { tv_sec := 0, tv_usec := 0 }),
          ({ ptr := 0, size := 9223372036854775799 }, { tv_sec := 0, tv_usec := 0 })]
        ).total_current_size = -9223372036854775805 ∧
      (handle_msg (consume init
        [({ ptr := 32, size := 5 }, { tv_sec := 0, tv_usec := 0 }),
          ({ ptr := 32, size := 7 }, { tv_sec := 0, tv_usec := 0 }),
          ({ ptr := 0, size := 9223372036854775799 }, { tv_sec := 0, tv_usec := 0 })])
        { ptr := 32, size := 0 } { tv_sec := 1, tv_usec := 0 }).map_data
        = [(0, { size := 9223372036854775799, size_bin := 11,
                 time := { tv_sec := 0, tv_usec := 0 } }),
            (32, { size := 7, size_bin := 1, time := { tv_sec := 0, tv_usec := 0 } })] ∧
      (handle_msg (consume init
        [({ ptr := 32, size := 5 }, { tv_sec := 0, tv_usec := 0 }),
          ({ ptr := 32, size := 7 }, { tv_sec := 0, tv_usec := 0 }),
          ({ ptr := 0, size := 9223372036854775799 }, { tv_sec := 0, tv_usec := 0 })])
        { ptr := 32, size := 0 } { tv_sec := 1, tv_usec := 0 }).total_current_size
        = 9223372036854775806) ∧
    (Reachable (consume init
        (List.replicate 4294967296 ({ ptr := 0, size := 1 }, { tv_sec := 0, tv_usec := 0 }))) ∧
      key_count (consume init
        (List.replicate 4294967296 ({ ptr := 0, size := 1 }, { tv_sec := 0, tv_usec := 0 }))
          ).map_data 0 = 4294967296 ∧
      (consume init
        (List.replicate 4294967296 ({ ptr := 0, size := 1 }, { tv_sec := 0, tv_usec := 0 }))
          ).size_array.getD 0 0 = 0 ∧
      (handle_msg (consume init
        (List.replicate 4294967296 ({ ptr := 0, size := 1 }, { tv_sec := 0, tv_usec := 0 })))
        { ptr := 0, size := 0 } { tv_sec := 1, tv_usec := 0 }).size_array.getD 0 0
        = 4294967295) := by
  constructor
  · refine ⟨consume_reachable _ init Reachable.start, by decide, by decide, by decide,
      by decide⟩
  · have h := replicate_insert_then_free { tv_sec := 0, tv_usec := 0 }
      { tv_sec := 1, tv_usec := 0 } 4294967296 (by decide)
    exact ⟨h.1, h.2.1, h.2.2.1.trans (by norm_num), h.2.2.2.trans (by norm_num [u32_dec])⟩

/-- C5 (amended): in every consumer state holding two live records `r1` (the first
for the address) and `r2` at the same address `p`, one Free event for `p` removes
exactly the record `r1`: the table loses that one entry, `r2` stays live at `p` with
its size and bin unchanged, `overall_allocations` is unchanged, `total_current_size`
becomes its old value less the size of `r1` read as a signed 64-bit value, and the
`size_array` entry of the bin of `r1` is decremented modulo `2^32` while no other
entry changes.  In a reachable state whose live sizes sum to less than `2^63`,
`total_current_size` decreases by exactly the size of `r1`; in a reachable state
with fewer than `2^32` live records in the bin of `r1`, that entry decreases by
exactly one. -/
theorem free_removes_first_of_two_wrapped (s : State) (p : Nat) (r1 r2 : data_t)
    (pre mid post : List (Nat × data_t)) (now : timeval)
    (hmap : s.map_data = pre ++ (p, r1) :: (mid ++ (p, r2) :: post))
    (hpre : ∀ e ∈ pre, e.1 ≠ p) :
    (handle_msg s { ptr := p, size := 0 } now).map_data = pre ++ (mid ++ (p, r2) :: post) ∧
    (handle_msg s { ptr := p, size := 0 } now).map_data.length + 1 = s.map_data.length ∧
    key_count (handle_msg s { ptr := p, size := 0 } now).map_data p + 1
      = key_count s.map_data p ∧
    (p, r2) ∈ (handle_msg s { ptr := p, size := 0 } now).map_data ∧
    (handle_msg s { ptr := p, size := 0 } now).overall_allocations = s.overall_allocations ∧
    (handle_msg s { ptr := p, size := 0 } now).total_current_size
      = wrap_long (s.total_current_size - r1.size) ∧
    (handle_msg s { ptr := p, size := 0 } now).size_array
      = s.size_array.set r1.size_bin (u32_dec (s.size_array.getD r1.size_bin 0)) ∧
    (∀ i, i ≠ r1.size_bin →
      (handle_msg s { ptr := p, size := 0 } now).size_array.getD i 0
        = s.size_array.getD i 0) ∧
    (Reachable s → live_size_sum s.map_data < 9223372036854775808 →
      (handle_msg s { ptr := p, size := 0 } now).total_current_size
        = s.total_current_size - r1.size) ∧
    (Reachable s → bin_count s.map_data r1.size_bin < 4294967296 →
      (handle_msg s { ptr := p, size := 0 } now).size_array.getD r1.size_bin 0 + 1
        = s.size_array.getD r1.size_bin 0) := by
  obtain ⟨hfind, herase⟩ := mm_find_of_first p r1 pre (mid ++ (p, r2) :: post) hpre
  rw [← hmap] at hfind herase
  have hh : handle_msg s { ptr := p, size := 0 } now = remove_allocation s p := by
    simp [handle_msg]
  rw [hh, remove_allocation_some s p (p, r1) hfind]
  have hmem : (p, r1) ∈ s.map_data := by rw [hmap]; simp
  have hsum : live_size_sum s.map_data
      = live_size_sum pre + (r1.size + live_size_sum (mid ++ (p, r2) :: post)) := by
    rw [hmap, live_size_sum_append, live_size_sum_cons]
  have hcnt : bin_count s.map_data r1.size_bin
      = bin_count pre r1.size_bin + (bin_count (mid ++ (p, r2) :: post) r1.size_bin + 1) := by
    rw [hmap, bin_count_append, bin_count_cons]
    simp
  refine ⟨herase, ?_, ?_, ?_, rfl, rfl, rfl, ?_, ?_, ?_⟩
  · show (mm_erase p s.map_data).length + 1 = _
    rw [herase, hmap]
    simp only [List.length_append, List.length_cons]
    omega
  · show key_count (mm_erase p s.map_data) p + 1 = _
    rw [herase, hmap]
    simp [key_count, List.countP_append, List.countP_cons]
    omega
  · show (p, r2) ∈ mm_erase p s.map_data
    rw [herase]
    simp
  · intro i hi
    show (List.set _ _ _).getD i 0 = _
    rw [getD_set]
    simp [hi]
  · intro hs hlt
    obtain ⟨_, _, _, htot⟩ := reachable_inv s hs
    show wrap_long (s.total_current_size - r1.size) = _
    have hrange : wrap_long (live_size_sum s.map_data : Int) = live_size_sum s.map_data := by
      apply wrap_long_of_range <;> omega
    rw [htot, hrange]
    clear htot hrange
    apply wrap_long_of_range <;> omega
  · intro hs hlt
    obtain ⟨hlen, hbins, harr, _⟩ := reachable_inv s hs
    have hb : r1.size_bin < NUM_SIZE_BINS := by
      rw [hbins (p, r1) hmem]
      exact size_bin_of_lt _
    show (List.set _ _ _).getD _ 0 + 1 = _
    rw [getD_set, hlen]
    simp only [hb, and_self, if_true, u32_dec, harr _ hb]
    omega

/-- Witness of C5 (amended): two records at address 16 (8 bytes, then 32 bytes); one
Free for 16 leaves the 32-byte record. -/
theorem free_removes_first_of_two_wrapped_witness :
    ((insert_allocation (insert_allocation init 16 8 { tv_sec := 0, tv_usec := 0 }) 16 32
        { tv_sec := 1, tv_usec := 0 }).map_data
      = [] ++ (16, { size := 8, size_bin := 2, time := { tv_sec := 0, tv_usec := 0 } }) ::
          ([] ++ (16, { size := 32, size_bin := 4, time := { tv_sec := 1, tv_usec := 0 } }) ::
            [])) ∧
    (handle_msg
      (insert_allocation (insert_allocation init 16 8 { tv_sec := 0, tv_usec := 0 }) 16 32
        { tv_sec := 1, tv_usec := 0 })
      { ptr := 16, size := 0 } { tv_sec := 2, tv_usec := 0 }).map_data
      = [(16, { size := 32, size_bin := 4, time := { tv_sec := 1, tv_usec := 0 } })] ∧
    (handle_msg
      (insert_allocation (insert_allocation init 16 8 { tv_sec := 0, tv_usec := 0 }) 16 32
        { tv_sec := 1, tv_usec := 0 })
      { ptr := 16, size := 0 } { tv_sec := 2, tv_usec := 0 }).total_current_size = 32 :=
  ⟨by decide,
    (free_removes_first_of_two_wrapped
      (insert_allocation (insert_allocation init 16 8 { tv_sec := 0, tv_usec := 0 }) 16 32
        { tv_sec := 1, tv_usec := 0 })
      16 { size := 8, size_bin := 2, time := { tv_sec := 0, tv_usec := 0 } }
      { size := 32, size_bin := 4, time := { tv_sec := 1, tv_usec := 0 } }
      [] [] [] { tv_sec := 2, tv_usec := 0 } (by decide) (by simp)).1,
    ((free_removes_first_of_two_wrapped
      (insert_allocation (insert_allocation init 16 8 { tv_sec := 0, tv_usec := 0 }) 16 32
        { tv_sec := 1, tv_usec := 0 })
      16 { size := 8, size_bin := 2, time := { tv_sec := 0, tv_usec := 0 } }
      { size := 32, size_bin := 4, time := { tv_sec := 1, tv_usec := 0 } }
      [] [] [] { tv_sec := 2, tv_usec := 0 } (by decide) (by simp)).2.2.2.2.2.2.2.2.1
      (Reachable.insert _ _ _ _ (Reachable.insert _ _ _ _ Reachable.start))
      (by decide)).trans (by decide)⟩

/-- C6: for every state and every address that has no live record,
`remove_allocation` changes nothing: the table, `overall_allocations`,
`total_current_size` and every entry of `size_array` are as before, and so it is when
the loop of `main` handles the Free message. -/
theorem remove_absent_is_noop (s : State) (ptr : Nat) (now : timeval)
    (h : ∀ e ∈ s.map_data, e.1 ≠ ptr) :
    remove_allocation s ptr = s ∧
    handle_msg s { ptr := ptr, size := 0 } now = s ∧
    (remove_allocation s ptr).map_data = s.map_data ∧
    (remove_allocation s ptr).overall_allocations = s.overall_allocations ∧
    (remove_allocation s ptr).total_current_size = s.total_current_size ∧
    (∀ i, (remove_allocation s ptr).size_array.getD i 0 = s.size_array.getD i 0) := by
  have hf : mm_find ptr s.map_data = none := by
    unfold mm_find
    rw [List.find?_eq_none]
    intro e he
    simpa using h e he
  have hr := remove_allocation_none s ptr hf
  have hh : handle_msg s { ptr := ptr, size := 0 } now = remove_allocation s ptr := by
    simp [handle_msg]
  rw [hh, hr]
  exact ⟨rfl, rfl, rfl, rfl, rfl, fun _ => rfl⟩

/-- Witness of C6: freeing address 32 when only address 16 is live. -/
theorem remove_absent_is_noop_witness :
    (∀ e ∈ (insert_allocation init 16 8 { tv_sec := 0, tv_usec := 0 }).map_data, e.1 ≠ 32) ∧
    remove_allocation (insert_allocation init 16 8 { tv_sec := 0, tv_usec := 0 }) 32
      = insert_allocation init 16 8 { tv_sec := 0, tv_usec := 0 } :=
  ⟨by decide,
    (remove_absent_is_noop (insert_allocation init 16 8 { tv_sec := 0, tv_usec := 0 }) 32
      { tv_sec := 0, tv_usec := 0 } (by decide)).1⟩

/-- C7 (as stated, refuted): `insert_allocation(16, 0)` on the initial state inserts a
record and increments `overall_allocations` and `size_array[0]`; and a message of
size 0 for address 16, handled by the loop of `main`, removes the record live at 16. -/
theorem insert_allocation_zero_size_inserts :
    (insert_allocation init 16 0 { tv_sec := 0, tv_usec := 0 }).map_data
      = [(16, { size := 0, size_bin := 0, time := { tv_sec := 0, tv_usec := 0 } })] ∧
    (insert_allocation init 16 0 { tv_sec := 0, tv_usec := 0 }).overall_allocations = 1 ∧
    (insert_allocation init 16 0 { tv_sec := 0, tv_usec := 0 }).size_array.getD 0 0 = 1 ∧
    insert_allocation init 16 0 { tv_sec := 0, tv_usec := 0 } ≠ init ∧
    (handle_msg (insert_allocation init 16 8 { tv_sec := 0, tv_usec := 0 })
      { ptr := 16, size := 0 } { tv_sec := 1, tv_usec := 0 }).map_data = [] := by
  decide

/-- C7 (amended): an Allocate with size 0 leaves the consumer untouched because
`send_allocation` puts nothing on the queue for it; `insert_allocation` itself has no
guard (called with size 0 it inserts a record of size 0 and bin 0 and increments
`overall_allocations` and `size_array[0]`), and the loop of `main` never calls it for
size 0: a message of size 0 is handled by `remove_allocation`. -/
theorem zero_size_allocate_is_dropped_by_producer (s : State) (ptr : Nat) (now : timeval)
    (queue : List msg_data_t) :
    send_allocation queue ptr 0 = queue ∧
    consume s ((send_allocation [] ptr 0).map (fun m => (m, now))) = s ∧
    handle_msg s { ptr := ptr, size := 0 } now = remove_allocation s ptr ∧
    (ptr, { size := 0, size_bin := 0, time := now }) ∈ (insert_allocation s ptr 0 now).map_data ∧
    (insert_allocation s ptr 0 now).map_data.length = s.map_data.length + 1 ∧
    (insert_allocation s ptr 0 now).overall_allocations = s.overall_allocations + 1 ∧
    (insert_allocation s ptr 0 now).size_array
      = s.size_array.set 0 (u32_inc (s.size_array.getD 0 0)) := by
  have hp := mm_insert_perm ptr { size := 0, size_bin := 0, time := now } s.map_data
  refine ⟨by simp [send_allocation], by simp [send_allocation, consume],
    by simp [handle_msg], ?_, ?_, rfl, rfl⟩
  · exact hp.mem_iff.mpr (List.mem_cons_self _ _)
  · exact hp.length_eq

/-- C8 (the code at the failing input): a record created at second 0 is 1.5 s old at
`now = 1 s 500000 us`, so the specification puts it in bucket 1 (1 s up to 10 s);
`print_stats` computes `elapsed_time = 1`, does not enter the loop and counts it in
bucket 0, the row printed as less than one second.  In general the loop of
`print_stats` changes bucket at 2, 20, 200 and 2000 elapsed seconds. -/
theorem age_bin_of_one_and_a_half_seconds :
    age_usec { tv_sec := 1, tv_usec := 500000 } { tv_sec := 0, tv_usec := 0 } = 1500000 ∧
    spec_age_bucket
      (age_usec { tv_sec := 1, tv_usec := 500000 } { tv_sec := 0, tv_usec := 0 }) = 1 ∧
    elapsed_time { tv_sec := 1, tv_usec := 500000 } { tv_sec := 0, tv_usec := 0 } = 1 ∧
    age_bin_of { tv_sec := 1, tv_usec := 500000 } { tv_sec := 0, tv_usec := 0 } = 0 ∧
    age_array (insert_allocation init 16 8 { tv_sec := 0, tv_usec := 0 })
      { tv_sec := 1, tv_usec := 500000 } = [1, 0, 0, 0, 0] ∧
    (∀ elapsed : Nat, age_bin_loop 4 elapsed 0 =
      if elapsed ≤ 1 then 0 else if elapsed < 20 then 1 else if elapsed < 200 then 2
      else if elapsed < 2000 then 3 else 4) := by
  refine ⟨by decide, by decide, by decide, by decide, by decide, ?_⟩
  intro elapsed
  simp only [age_bin_loop]
  split_ifs <;> omega

/-- C9: for every `N` and `M`, `N` producers that each emit `M` Allocate messages of
nonzero size followed by the Free messages of the same `M` addresses, and every
interleaving of their streams that keeps each producer's own order: the consumer
started from the initial state ends with an empty live table,
`total_current_size = 0` and `overall_allocations = N * M`, whatever the
interleaving. -/
theorem producers_drain_to_zero (N M : Nat) (prods : List (List (Nat × Nat) × List Nat))
    (msgs : List (msg_data_t × timeval))
    (hN : prods.length = N)
    (hM : ∀ pr ∈ prods, pr.1.length = M)
    (hsize : ∀ pr ∈ prods, ∀ a ∈ pr.1, a.2 ≠ 0)
    (hfree : ∀ pr ∈ prods, pr.2.Perm (pr.1.map Prod.fst))
    (hint : Interleave (prods.map producer_stream) (msgs.map Prod.fst)) :
    (consume init msgs).total_current_size = 0 ∧
    (consume init msgs).overall_allocations = ((N * M : Nat) : Int) ∧
    (consume init msgs).map_data = [] := by
  have hstream : ∀ p, ∀ r ∈ prods.map producer_stream, settles p 0 r := by
    intro p r hr
    obtain ⟨pr, hpr, rfl⟩ := List.mem_map.mp hr
    exact settles_producer p pr.2 pr.1 (hsize pr hpr) 0
      (by rw [Nat.zero_add]; exact ((hfree pr hpr).count_eq p).symm)
  have hempty : (consume init msgs).map_data = [] := by
    apply eq_nil_of_key_count
    intro p
    apply settles_consume p msgs init (((prods.map producer_stream).map (credit p)).sum)
    · apply settles_interleave p _ _ hint
      intro r hr
      rw [settles_credit p r 0 (hstream p r hr)]
      exact hstream p r hr
    · symm
      apply List.sum_eq_zero
      intro x hx
      obtain ⟨r, hr, rfl⟩ := List.mem_map.mp hx
      exact settles_credit p r 0 (hstream p r hr)
  refine ⟨?_, ?_, hempty⟩
  · rw [(reachable_inv _ (consume_reachable msgs init Reachable.start)).2.2.2, hempty]
    rfl
  · rw [overall_allocations_consume]
    have h1 : msgs.countP (fun m => m.1.size != 0)
        = (msgs.map Prod.fst).countP (fun m => m.size != 0) := by
      rw [List.countP_map]
      rfl
    rw [h1, countP_interleave _ _ _ hint, allocates_of_producers M prods hM hsize, hN]
    simp [init]

/-- Witness of C9: two producers with one allocation each (8 bytes at 16, 4 bytes at
32), interleaved as allocate 16, allocate 32, free 16, free 32. -/
theorem producers_drain_to_zero_witness :
    Interleave
      ([([(16, 8)], [16]), ([(32, 4)], [32])].map producer_stream)
      ([(({ ptr := 16, size := 8 } : msg_data_t), ({ tv_sec := 0, tv_usec := 0 } : timeval)),
        ({ ptr := 32, size := 4 }, { tv_sec := 0, tv_usec := 1 }),
        ({ ptr := 16, size := 0 }, { tv_sec := 0, tv_usec := 2 }),
        ({ ptr := 32, size := 0 }, { tv_sec := 0, tv_usec := 3 })].map Prod.fst) ∧
    (consume init
      [({ ptr := 16, size := 8 }, { tv_sec := 0, tv_usec := 0 }),
        ({ ptr := 32, size := 4 }, { tv_sec := 0, tv_usec := 1 }),
        ({ ptr := 16, size := 0 }, { tv_sec := 0, tv_usec := 2 }),
        ({ ptr := 32, size := 0 }, { tv_sec := 0, tv_usec := 3 })]).total_current_size = 0 ∧
    (consume init
      [({ ptr := 16, size := 8 }, { tv_sec := 0, tv_usec := 0 }),
        ({ ptr := 32, size := 4 }, { tv_sec := 0, tv_usec := 1 }),
        ({ ptr := 16, size := 0 }, { tv_sec := 0, tv_usec := 2 }),
        ({ ptr := 32, size := 0 }, { tv_sec := 0, tv_usec := 3 })]).overall_allocations
      = ((2 * 1 : Nat) : Int) := by
  have hint : Interleave
      ([([(16, 8)], [16]), ([(32, 4)], [32])].map producer_stream)
      ([(({ ptr := 16, size := 8 } : msg_data_t), ({ tv_sec := 0, tv_usec := 0 } : timeval)),
        ({ ptr := 32, size := 4 }, { tv_sec := 0, tv_usec := 1 }),
        ({ ptr := 16, size := 0 }, { tv_sec := 0, tv_usec := 2 }),
        ({ ptr := 32, size := 0 }, { tv_sec := 0, tv_usec := 3 })].map Prod.fst) :=
    @Interleave.pick msg_data_t [] [[msg_data_t.mk 32 4, msg_data_t.mk 32 0]]
      (msg_data_t.mk 16 8) [msg_data_t.mk 16 0]
      [msg_data_t.mk 32 4, msg_data_t.mk 16 0, msg_data_t.mk 32 0]
      (@Interleave.pick msg_data_t [[msg_data_t.mk 16 0]] []
        (msg_data_t.mk 32 4) [msg_data_t.mk 32 0] [msg_data_t.mk 16 0, msg_data_t.mk 32 0]
        (@Interleave.pick msg_data_t [] [[msg_data_t.mk 32 0]] (msg_data_t.mk 16 0) []
          [msg_data_t.mk 32 0]
          (@Interleave.pick msg_data_t [[]] [] (msg_data_t.mk 32 0) [] []
            (@Interleave.done msg_data_t [[], []] (by decide)))))
  have h := producers_drain_to_zero 2 1 [([(16, 8)], [16]), ([(32, 4)], [32])]
    [({ ptr := 16, size := 8 }, { tv_sec := 0, tv_usec := 0 }),
      ({ ptr := 32, size := 4 }, { tv_sec := 0, tv_usec := 1 }),
      ({ ptr := 16, size := 0 }, { tv_sec := 0, tv_usec := 2 }),
      ({ ptr := 32, size := 0 }, { tv_sec := 0, tv_usec := 3 })]
    rfl (by decide) (by decide) (by decide) hint
  exact ⟨hint, h.1, h.2.1⟩

/-- C10: `send_allocation(p, s)` appends exactly the message `(p, s)` when `s` is not
zero and nothing when it is zero; `send_free(p)` appends exactly the message `(p, 0)`;
the loop of `main` handles a message by `insert_allocation` if its size is not zero
and by `remove_allocation` otherwise; so the message of an allocation is handled as
an insertion and the message of a free as a removal. -/
theorem size_zero_convention_end_to_end (queue : List msg_data_t) (p size : Nat)
    (s : State) (msg : msg_data_t) (now : timeval) :
    (size ≠ 0 → send_allocation queue p size = queue ++ [{ ptr := p, size := size }]) ∧
    (size = 0 → send_allocation queue p size = queue) ∧
    send_free queue p = queue ++ [{ ptr := p, size := 0 }] ∧
    (msg.size ≠ 0 → handle_msg s msg now = insert_allocation s msg.ptr msg.size now) ∧
    (msg.size = 0 → handle_msg s msg now = remove_allocation s msg.ptr) ∧
    (size ≠ 0 → consume s ((send_allocation [] p size).map (fun m => (m, now)))
      = insert_allocation s p size now) ∧
    consume s ((send_free [] p).map (fun m => (m, now))) = remove_allocation s p := by
  refine ⟨?_, ?_, rfl, ?_, ?_, ?_, ?_⟩
  · intro h; simp [send_allocation, h]
  · intro h; simp [send_allocation, h]
  · intro h; simp [handle_msg, h]
  · intro h; simp [handle_msg, h]
  · intro h; simp [send_allocation, consume, handle_msg, h]
  · simp [send_free, consume, handle_msg]

/-- Witness of C10: 8 bytes at address 16 on an empty queue and on the initial state. -/
theorem size_zero_convention_end_to_end_witness :
    send_allocation [] 16 8 = [{ ptr := 16, size := 8 }] ∧
    send_allocation [] 16 0 = [] ∧
    handle_msg init { ptr := 16, size := 8 } { tv_sec := 0, tv_usec := 0 }
      = insert_allocation init 16 8 { tv_sec := 0, tv_usec := 0 } ∧
    handle_msg init { ptr := 16, size := 0 } { tv_sec := 0, tv_usec := 0 }
      = remove_allocation init 16 :=
  ⟨(size_zero_convention_end_to_end [] 16 8 init { ptr := 16, size := 8 }
      { tv_sec := 0, tv_usec := 0 }).1 (by decide),
    (size_zero_convention_end_to_end [] 16 0 init { ptr := 16, size := 0 }
      { tv_sec := 0, tv_usec := 0 }).2.1 rfl,
    (size_zero_convention_end_to_end [] 16 8 init { ptr := 16, size := 8 }
      { tv_sec := 0, tv_usec := 0 }).2.2.2.1 (by decide),
    (size_zero_convention_end_to_end [] 16 0 init { ptr := 16, size := 0 }
      { tv_sec := 0, tv_usec := 0 }).2.2.2.2.1 rfl⟩

/-- C11: with the segment initialised by the server and callers that bracket their
critical sections by `shm_spin_lock` and `shm_spin_unlock` of the same kind, in every
interleaving of their atomic steps, for each of the four kinds: at most one caller is
inside the critical section of the kind, and the flag of the kind is set exactly when
one is; the loop of `shm_spin_lock` is left exactly when the test-and-set found the
flag clear, and it leaves the flag set; `shm_spin_unlock` clears the flag; neither
changes any other flag. -/
theorem shm_spin_lock_mutual_exclusion (shm : List Bool) (n : Nat)
    (schedule : List (Nat × Nat)) (caller lock_type : Nat)
    (hshm : shm.length = SHM_SIZE)
    (hsched : ∀ e ∈ schedule, e.2 ∈ lock_types)
    (hkind : lock_type ∈ lock_types) :
    holders (lock_run (lock_init shm n) schedule) lock_type ≤ 1 ∧
    ((lock_run (lock_init shm n) schedule).shm.getD lock_type false = true ↔
      holders (lock_run (lock_init shm n) schedule) lock_type = 1) ∧
    (lock_run (lock_init shm n) schedule).shm.length = SHM_SIZE ∧
    ((shm_spin_lock_try (lock_run (lock_init shm n) schedule).shm lock_type).1 = true ↔
      (lock_run (lock_init shm n) schedule).shm.getD lock_type false = false) ∧
    (shm_spin_lock_try (lock_run (lock_init shm n) schedule).shm lock_type).2.getD
      lock_type false = true ∧
    (shm_spin_unlock (lock_run (lock_init shm n) schedule).shm lock_type).getD
      lock_type false = false ∧
    (∀ j, j ≠ lock_type →
      (shm_spin_lock_try (lock_run (lock_init shm n) schedule).shm lock_type).2.getD j false
        = (lock_run (lock_init shm n) schedule).shm.getD j false ∧
      (shm_spin_unlock (lock_run (lock_init shm n) schedule).shm lock_type).getD j false
        = (lock_run (lock_init shm n) schedule).shm.getD j false) ∧
    ((lock_run (lock_init shm n) schedule).holding[caller]? = some none →
      ((lock_step (lock_run (lock_init shm n) schedule) caller lock_type).holding[caller]?
          = some (some lock_type) ↔
        (lock_run (lock_init shm n) schedule).shm.getD lock_type false = false)) := by
  obtain ⟨i1, i2, i3⟩ := lock_init_inv shm n
  obtain ⟨hlen, hcount⟩ := lock_run_inv schedule (lock_init shm n) hsched i1 i2 i3
  have hlen0 : (lock_init shm n).shm.length = SHM_SIZE := by
    simp only [lock_init, main_init_shm, List.length_append, List.length_replicate,
      List.length_drop, hshm, SHM_SIZE]
  rw [hlen0] at hlen
  have hlt : lock_type < (lock_run (lock_init shm n) schedule).shm.length := by
    have := lock_types_lt lock_type hkind
    rw [hlen]
    simp only [SHM_SIZE]
    omega
  have hc := hcount lock_type hkind
  refine ⟨?_, ?_, hlen, ?_, ?_, ?_, ?_, ?_⟩
  · rw [hc]; split_ifs <;> omega
  · rw [hc]
    constructor
    · intro h; rw [if_pos h]
    · intro h
      by_contra hne
      rw [if_neg hne] at h
      omega
  · simp [shm_spin_lock_try, atomic_flag_test_and_set]
  · simp only [shm_spin_lock_try, atomic_flag_test_and_set, getD_set_flag]
    simp [hlt]
  · simp only [shm_spin_unlock, atomic_flag_clear, getD_set_flag]
    simp [hlt]
  · intro j hj
    simp only [shm_spin_lock_try, atomic_flag_test_and_set, shm_spin_unlock, atomic_flag_clear,
      getD_set_flag, hj, false_and, if_false, and_self]
  · intro hout
    have hcl : caller < (lock_run (lock_init shm n) schedule).holding.length := by
      by_contra hge
      rw [List.getElem?_eq_none (Nat.le_of_not_lt hge)] at hout
      simp at hout
    unfold lock_step
    rw [hout]
    simp only [shm_spin_lock_try, atomic_flag_test_and_set]
    cases hflag : (lock_run (lock_init shm n) schedule).shm.getD lock_type false with
    | true => simp [hout]
    | false => simp [List.getElem?_set, hcl]

/-- Witness of C11: three callers, two of them asking for `LOCK_TYPE_MALLOC`. -/
theorem shm_spin_lock_mutual_exclusion_witness :
    (List.replicate 64 true).length = SHM_SIZE ∧
    (∀ e ∈ [(0, 1), (1, 1), (2, 2), (1, 1), (0, 1), (1, 1)], e.2 ∈ lock_types) ∧
    LOCK_TYPE_MALLOC ∈ lock_types ∧
    holders (lock_run (lock_init (List.replicate 64 true) 3)
      [(0, 1), (1, 1), (2, 2), (1, 1), (0, 1), (1, 1)]) LOCK_TYPE_MALLOC ≤ 1 :=
  ⟨by decide, by decide, by decide,
    (shm_spin_lock_mutual_exclusion (List.replicate 64 true) 3
      [(0, 1), (1, 1), (2, 2), (1, 1), (0, 1), (1, 1)] 0 LOCK_TYPE_MALLOC
      (by decide) (by decide) (by decide)).1⟩

/-- C12: for all counts of the 12 size buckets and the 5 age buckets (values of
`uint32_t`) with maximum `m`, the maximum found by `get_max_bin_num`, the symbol scale
computed by `print_stats` is `2^k` for the least `k` with `m / 2^k ≤ 40`; it is 1 when
`m ≤ 40` and 4 when `m = 85` (85, 42, 21); every row, which has `size_array[i] / scale`
or `age_array[i] / scale` marks, has at most 40 marks. -/
theorem symbol_scale_is_least_power_of_two (s : State) (age_array : List Nat)
    (hsize : ∀ x ∈ s.size_array, x < 4294967296) (hage : ∀ x ∈ age_array, x < 4294967296) :
    ((∀ i, i < 12 → s.size_array.getD i 0 ≤ get_max_bin_num s age_array) ∧
      (∀ i, i < 5 → age_array.getD i 0 ≤ get_max_bin_num s age_array) ∧
      (get_max_bin_num s age_array = 0 ∨
        (∃ i, i < 12 ∧ get_max_bin_num s age_array = s.size_array.getD i 0) ∨
        (∃ i, i < 5 ∧ get_max_bin_num s age_array = age_array.getD i 0))) ∧
    (∃ k, symbol_size_of (get_max_bin_num s age_array) = 2 ^ k ∧
      get_max_bin_num s age_array / 2 ^ k ≤ 40 ∧
      ∀ j, j < k → 40 < get_max_bin_num s age_array / 2 ^ j) ∧
    (get_max_bin_num s age_array ≤ 40 → symbol_size_of (get_max_bin_num s age_array) = 1) ∧
    (get_max_bin_num s age_array = 85 →
      symbol_size_of (get_max_bin_num s age_array) = 4) ∧
    symbol_size_loop 85 85 1 = (21, 4) ∧
    (∀ bin, bin < 12 →
      (print_size_symbol s bin (symbol_size_of (get_max_bin_num s age_array))).length
        = s.size_array.getD bin 0 / symbol_size_of (get_max_bin_num s age_array)) ∧
    (∀ bin, bin < 5 →
      (print_age_symbol age_array bin (symbol_size_of (get_max_bin_num s age_array))).length
        = age_array.getD bin 0 / symbol_size_of (get_max_bin_num s age_array)) ∧
    (∀ bin,
      (print_size_symbol s bin (symbol_size_of (get_max_bin_num s age_array))).length ≤ 40 ∧
      (print_age_symbol age_array bin (symbol_size_of (get_max_bin_num s age_array))).length
        ≤ 40) := by
  have hspec := get_max_bin_num_spec s age_array
  simp only [NUM_SIZE_BINS, NUM_AGE_BINS] at hspec
  have hlt := get_max_bin_num_lt s age_array hsize hage
  obtain ⟨k, hk1, hk2, hk3⟩ := symbol_size_of_spec _ hlt
  have hrow : ∀ c, c ≤ get_max_bin_num s age_array →
      c / symbol_size_of (get_max_bin_num s age_array) ≤ 40 := by
    intro c hc
    rw [hk1]
    exact le_trans (Nat.div_le_div_right hc) hk2
  refine ⟨hspec, ⟨k, hk1, hk2, hk3⟩, ?_, ?_, by decide, ?_, ?_, ?_⟩
  · intro h40
    cases k with
    | zero => simpa using hk1
    | succ k2 =>
      have := hk3 0 (by omega)
      simp at this
      omega
  · intro h85
    rw [h85]
    decide
  · intro bin hbin
    have : ¬ bin ≥ NUM_SIZE_BINS := by simp only [NUM_SIZE_BINS]; omega
    simp [print_size_symbol, this]
  · intro bin hbin
    have : ¬ bin ≥ NUM_AGE_BINS := by simp only [NUM_AGE_BINS]; omega
    simp [print_age_symbol, this]
  · intro bin
    constructor
    · unfold print_size_symbol
      split_ifs with hb
      · simp
      · rw [List.length_replicate]
        exact hrow _ (hspec.1 bin (by simp only [NUM_SIZE_BINS] at hb; omega))
    · unfold print_age_symbol
      split_ifs with hb
      · simp
      · rw [List.length_replicate]
        exact hrow _ (hspec.2.1 bin (by simp only [NUM_AGE_BINS] at hb; omega))

/-- Witness of C12: a largest count of 85 gives the scale 4. -/
theorem symbol_scale_is_least_power_of_two_witness :
    (∀ x ∈ [85, 0, 0, 0, 0, 0, 0, 0, 0, 0, 0, 3], x < 4294967296) ∧
    (∀ x ∈ [80, 5, 3, 0, 0], x < 4294967296) ∧
    symbol_size_of (get_max_bin_num
      { map_data := [], overall_allocations := 88, total_current_size := 0,
        size_array := [85, 0, 0, 0, 0, 0, 0, 0, 0, 0, 0, 3] } [80, 5, 3, 0, 0]) = 4 :=
  ⟨by decide, by decide,
    (symbol_scale_is_least_power_of_two
      { map_data := [], overall_allocations := 88, total_current_size := 0,
        size_array := [85, 0, 0, 0, 0, 0, 0, 0, 0, 0, 0, 3] } [80, 5, 3, 0, 0]
      (by decide) (by decide)).2.2.2.1 (by decide)⟩

end StatMalloc
